import Mathlib

/-!
Verification of the RNS/CKKS core (ring sampler, dckks key switching, ckks evaluator)
against its natural-language specification.  Polynomials are embedded as lists of
residue rows (one row per modulus of the ring context); machine integers are
modelled as `Nat` with explicit reductions, floating-point scales as `ℚ`.
-/

set_option autoImplicit false

/-- A residue row: the coefficients of the polynomial modulo one prime of the chain. -/
abbrev Row := List Nat

/-- An RNS polynomial: one residue row per modulus of the context that created it,
mirroring `ring.RPoly.Coeffs`. -/
abbrev RPoly := List Row

/-- Montgomery radix of the 64-bit arithmetic kernel, `R = 2^64`. -/
def R64 : Nat := 2 ^ 64

/-- Modelled from the spec: `MForm` (ring package, not under src/) computes the
Montgomery form `a * R mod q`. -/
def mform (a q : Nat) : Nat := a * R64 % q

/-- Modular inverse of the Montgomery radix modulo `q`, used to state `MRed`. -/
def rinv (q : Nat) : Nat := (((R64 : Nat) : ZMod q)⁻¹).val

/-- Modelled from the spec: `MRed` (ring package, not under src/) computes the
Montgomery product `a * b * R⁻¹ mod q`. -/
def mred (a b q : Nat) : Nat := a * b * rinv q % q

/-- Pointwise modular addition of two coefficients. -/
def addC (q a b : Nat) : Nat := (a + b) % q

/-- Pointwise modular subtraction `a - b mod q` (operands are reduced residues). -/
def subC (q a b : Nat) : Nat := (a + (q - b)) % q

/-- Modular negation of a reduced residue. -/
def negC (q a : Nat) : Nat := (q - a) % q

/-- Number of nonzero entries of a residue row. -/
def nonzeroCount (r : Row) : Nat := (r.filter (fun x => x != 0)).length

/-! ## Sparse ternary sampler (ring package, src/unnamed/part_000) -/

/-- Translated from `initializeMatrix`: the per-modulus images of the ternary values,
`matrixValues[i] = (0, image of +1, image of -1)`, optionally in Montgomery form. -/
def matrixValues (montgomery : Bool) (q : Nat) : Nat × Nat × Nat :=
  (0, if montgomery then mform 1 q else 1, if montgomery then mform (q - 1) q else q - 1)

/-- Translated from `sampleSparse`: the value written at a chosen position for the
drawn random bit `b`, namely `matrixValues[i][coeff]` with `coeff ∈ {0,1}`. -/
def sparseWrittenValue (montgomery : Bool) (q : Nat) (b : Bool) : Nat :=
  if b then (matrixValues montgomery q).2.1 else (matrixValues montgomery q).1

/-- Translated from `sampleSparse`, main loop.  `js i` is the accepted draw of the
rejection sampler at iteration `i` (the loop resamples until `js i < N - i`), and
`bits i` is the `i`-th bit of the random byte stream.  `index` is the list of
still-unused positions; `rem` counts the remaining iterations. -/
def sampleSparseLoop (moduli : List Nat) (montgomery : Bool)
    (js : Nat → Nat) (bits : Nat → Bool) :
    Nat → Nat → List Nat → RPoly → RPoly
  | _, 0, _, pol => pol
  | i, rem + 1, index, pol =>
      let j := js i
      let pos := index.getD j 0
      let pol' := List.zipWith
        (fun q row => row.set pos (sparseWrittenValue montgomery q (bits i))) moduli pol
      let index' := (index.set j (index.getLast?.getD 0)).dropLast
      sampleSparseLoop moduli montgomery js bits (i + 1) rem index' pol'

/-- Translated from `sampleSparse`: caps `hw` at `N`, initialises the index list to
`[0, …, N-1]` and runs the sampling loop on the destination polynomial. -/
def sampleSparse (N : Nat) (moduli : List Nat) (montgomery : Bool) (hw : Nat)
    (js : Nat → Nat) (bits : Nat → Bool) (pol : RPoly) : RPoly :=
  sampleSparseLoop moduli montgomery js bits 0 (min hw N) (List.range N) pol

/-! ## Level-limited ring operations (ring package, not under src/)

Modelled from the spec: all `Lvl` variants operate only on the first `level+1`
residue rows and leave higher rows untouched; indexing a row that does not exist
aborts, which the model reflects by returning `none`. -/

/-- Apply a per-modulus binary row operation to the first `k` rows, keeping the
remaining rows of the destination. -/
def onFirst2 (f : Nat → Row → Row → Row) :
    List Nat → Nat → RPoly → RPoly → RPoly → RPoly
  | q :: m, k + 1, r1 :: p1, r2 :: p2, _ :: pOut => f q r1 r2 :: onFirst2 f m k p1 p2 pOut
  | _, _, _, _, pOut => pOut

/-- Apply a per-modulus unary row operation to the first `k` rows, keeping the
remaining rows of the destination. -/
def onFirst1 (f : Nat → Row → Row) :
    List Nat → Nat → RPoly → RPoly → RPoly
  | q :: m, k + 1, r1 :: p1, _ :: pOut => f q r1 :: onFirst1 f m k p1 pOut
  | _, _, _, pOut => pOut

/-- Replace the first `k` rows of the destination by the rows of the source,
keeping the remaining rows of the destination. -/
def onFirstCopy : Nat → RPoly → RPoly → RPoly
  | k + 1, r :: p1, _ :: pOut => r :: onFirstCopy k p1 pOut
  | _, _, pOut => pOut

/-- Zip three rows with a ternary coefficient operation. -/
def zip3With (f : Nat → Nat → Nat → Nat) : Row → Row → Row → Row
  | a :: r1, b :: r2, c :: r3 => f a b c :: zip3With f r1 r2 r3
  | _, _, _ => []

/-- Modelled from the spec: `AddLvl` performs pointwise modular addition on the
first `level+1` residue rows, leaving higher rows of the destination untouched. -/
def addLvl (m : List Nat) (lvl : Nat) (p1 p2 pOut : RPoly) : Option RPoly :=
  if lvl + 1 ≤ p1.length ∧ lvl + 1 ≤ p2.length ∧ lvl + 1 ≤ pOut.length ∧ lvl + 1 ≤ m.length
  then some (onFirst2 (fun q r1 r2 => List.zipWith (addC q) r1 r2) m (lvl + 1) p1 p2 pOut)
  else none

/-- Modelled from the spec: `SubLvl` performs pointwise modular subtraction on the
first `level+1` residue rows. -/
def subLvl (m : List Nat) (lvl : Nat) (p1 p2 pOut : RPoly) : Option RPoly :=
  if lvl + 1 ≤ p1.length ∧ lvl + 1 ≤ p2.length ∧ lvl + 1 ≤ pOut.length ∧ lvl + 1 ≤ m.length
  then some (onFirst2 (fun q r1 r2 => List.zipWith (subC q) r1 r2) m (lvl + 1) p1 p2 pOut)
  else none

/-- Modelled from the spec: `CopyLvl` copies the first `level+1` residue rows of the
source over the destination, leaving higher rows of the destination untouched. -/
def copyLvl (lvl : Nat) (src dst : RPoly) : Option RPoly :=
  if lvl + 1 ≤ src.length ∧ lvl + 1 ≤ dst.length
  then some (onFirstCopy (lvl + 1) src dst)
  else none

/-- Modelled from the spec: `NegLvl` negates the first `level+1` residue rows in place. -/
def negLvl (m : List Nat) (lvl : Nat) (p : RPoly) : Option RPoly :=
  if lvl + 1 ≤ p.length ∧ lvl + 1 ≤ m.length
  then some (onFirst1 (fun q r => r.map (negC q)) m (lvl + 1) p p)
  else none

/-! ## CKS protocol (src/dckks/keyswitching.go) -/

/-- Equal-length pointwise modular addition of two polynomials, the combined value
the C2 claim reasons about. -/
def addPoly : List Nat → RPoly → RPoly → RPoly
  | q :: m, r1 :: p1, r2 :: p2 => List.zipWith (addC q) r1 r2 :: addPoly m p1 p2
  | _, _, _ => []

/-- Translated from `CKSProtocol.AggregateShares`: adds the two shares with
`AddLvl` at level `len(share1.Coeffs) - 1`. -/
def aggregateShares (m : List Nat) (share1 share2 shareOut : RPoly) : Option RPoly :=
  addLvl m (share1.length - 1) share1 share2 shareOut

/-- The C2 claim as stated: pointwise modular addition over the first
`min (len share1) (len share2)` residue rows, the remaining rows of the
receiver untouched. -/
def aggregateSharesClaimed (m : List Nat) (share1 share2 shareOut : RPoly) : RPoly :=
  onFirst2 (fun q r1 r2 => List.zipWith (addC q) r1 r2) m
    (min share1.length share2.length) share1 share2 shareOut

/-! ## Ciphertext elements -/

/-- A CKKS element (`ckksElement`): its polynomial parts, its tracked scale
(a `float64` in Go, modelled exactly as a rational) and its NTT-domain flag. -/
@[ext]
structure Elem where
  value : List RPoly
  scaleV : ℚ
  isNTT : Bool
deriving DecidableEq

/-- Degree of an element: number of polynomial parts minus one. -/
def elDegree (el : Elem) : Nat := el.value.length - 1

/-- Level of an element: number of residue rows of its first part minus one,
mirroring `len(el.value[0].Coeffs) - 1`. -/
def elLevel (el : Elem) : Nat := (el.value.headD []).length - 1

/-- Translated from `CKSProtocol.KeySwitch`: sets the output scale to the input
scale, adds the combined share into part 0 at the input's level, and copies
part 1 at the input's level. -/
def keySwitch (m : List Nat) (combined : RPoly) (ct ctOut : Elem) : Option Elem :=
  if 2 ≤ ct.value.length ∧ 2 ≤ ctOut.value.length then
    match addLvl m (elLevel ct) (ct.value.getD 0 []) combined (ctOut.value.getD 0 []),
          copyLvl (elLevel ct) (ct.value.getD 1 []) (ctOut.value.getD 1 []) with
    | some v0, some v1 =>
        some { ctOut with scaleV := ct.scaleV, value := (ctOut.value.set 0 v0).set 1 v1 }
    | _, _ => none
  else none

/-! ## Evaluator context and pools (src/unnamed/part_002) -/

/-- Map over a list with an explicit running index. -/
def mapWithIdx {α : Type} (f : Nat → α → α) : Nat → List α → List α
  | _, [] => []
  | i, a :: l => f i a :: mapWithIdx f (i + 1) l

/-- Apply a per-modulus ternary row operation (two sources and the accumulating
destination row) to the first `k` rows, keeping the remaining destination rows. -/
def onFirst3 (f : Nat → Row → Row → Row → Row) :
    List Nat → Nat → RPoly → RPoly → RPoly → RPoly
  | q :: m, k + 1, r1 :: p1, r2 :: p2, r3 :: pOut => f q r1 r2 r3 :: onFirst3 f m k p1 p2 pOut
  | _, _, _, _, pOut => pOut

/-- The fixed ring data of a CKKS context: degree `N`, main chain `Qm`
(`contextQ.Modulus`, of length `levels`), special chain `Pm`
(`contextP.Modulus`), decomposition granularity `alpha` and the default scale. -/
structure Ctx where
  N : Nat
  Qm : List Nat
  Pm : List Nat
  alpha : Nat
  defaultScale : ℚ
deriving DecidableEq

/-- Number of moduli of the main chain (`ckksContext.levels`). -/
def Ctx.levels (c : Ctx) : Nat := c.Qm.length

/-- A zero residue row of length `n`. -/
def zeroRow (n : Nat) : Row := List.replicate n 0

/-- A zero polynomial with `rows` residue rows of length `n` (`NewPoly`). -/
def zeroPoly (rows n : Nat) : RPoly := List.replicate rows (zeroRow n)

/-- A fresh `contextQ` polynomial. -/
def zeroQ (c : Ctx) : RPoly := zeroPoly c.levels c.N

/-- A fresh `contextP` polynomial. -/
def zeroP (c : Ctx) : RPoly := zeroPoly c.Pm.length c.N

/-- A fresh `contextKeys` (QP) polynomial. -/
def zeroQP (c : Ctx) : RPoly := zeroPoly (c.levels + c.Pm.length) c.N

/-- Modelled from the spec: `MFormLvl` converts the first `level+1` rows to
Montgomery form. -/
def mformLvlO (m : List Nat) (lvl : Nat) (p pOut : RPoly) : Option RPoly :=
  if lvl + 1 ≤ p.length ∧ lvl + 1 ≤ pOut.length ∧ lvl + 1 ≤ m.length
  then some (onFirst1 (fun q r => r.map (fun a => mform a q)) m (lvl + 1) p pOut)
  else none

/-- Modelled from the spec: `MulCoeffsMontgomeryLvl` writes the pointwise
Montgomery product into the first `level+1` rows of the destination. -/
def mulCoeffsMontgomeryLvlO (m : List Nat) (lvl : Nat) (p1 p2 pOut : RPoly) : Option RPoly :=
  if lvl + 1 ≤ p1.length ∧ lvl + 1 ≤ p2.length ∧ lvl + 1 ≤ pOut.length ∧ lvl + 1 ≤ m.length
  then some (onFirst2 (fun q r1 r2 => List.zipWith (fun a b => mred a b q) r1 r2)
    m (lvl + 1) p1 p2 pOut)
  else none

/-- Modelled from the spec: `MulCoeffsMontgomeryAndAddNoModLvl` accumulates the
pointwise Montgomery product onto the first `level+1` rows of the destination
without modular reduction; the accumulator is a `uint64`, hence the wrap at `2^64`. -/
def mulCoeffsMontgomeryAndAddNoModLvlO (m : List Nat) (lvl : Nat)
    (p1 p2 pOut : RPoly) : Option RPoly :=
  if lvl + 1 ≤ p1.length ∧ lvl + 1 ≤ p2.length ∧ lvl + 1 ≤ pOut.length ∧ lvl + 1 ≤ m.length
  then some (onFirst3 (fun q r1 r2 r3 => zip3With (fun a b c => (c + mred a b q) % R64) r1 r2 r3)
    m (lvl + 1) p1 p2 pOut)
  else none

/-- Modelled from the spec: `MulScalarBigintLvl` multiplies the first `level+1`
rows by a (big) integer scalar modulo each prime. -/
def mulScalarLvlO (m : List Nat) (lvl : Nat) (s : Nat) (p pOut : RPoly) : Option RPoly :=
  if lvl + 1 ≤ p.length ∧ lvl + 1 ≤ pOut.length ∧ lvl + 1 ≤ m.length
  then some (onFirst1 (fun q r => r.map (fun a => a * s % q)) m (lvl + 1) p pOut)
  else none

/-- Modelled from the spec: `ReduceLvl` reduces the first `level+1` rows modulo
their primes (Barrett reduction made exact). -/
def reduceLvl (m : List Nat) (lvl : Nat) (p : RPoly) : RPoly :=
  onFirst1 (fun q r => r.map (fun a => a % q)) m (lvl + 1) p p

/-- Modelled from the spec: `contextP.Reduce` reduces every row modulo its prime. -/
def reduceFull (m : List Nat) (p : RPoly) : RPoly :=
  List.zipWith (fun q r => r.map (fun a => a % q)) m p

/-- The ring primitives used by the evaluator whose code is not under src/
(NTT transforms, the CRT decomposer and the basis extender).  Theorems about the
evaluator quantify over any implementation of this interface. -/
structure ExtOps where
  invNTTLvl : Nat → RPoly → RPoly
  nttRow : Nat → Row → Row
  nttP : RPoly → RPoly
  decompose : Nat → Nat → RPoly → RPoly × RPoly
  xalpha : Nat → Nat
  modDownSplitedNTT : Nat → RPoly → RPoly → RPoly
  permute : RPoly → List Nat → RPoly

/-- A switching key: one Montgomery-form pair of QP polynomials per
decomposition digit (`evakey[i][0]`, `evakey[i][1]`). -/
structure SwitchingKey where
  digits : List (RPoly × RPoly)
deriving DecidableEq

/-- The scratch polynomials owned by an `Evaluator`: `ringpool[0..4]` in Q,
`keyswitchpool[0]` in QP, `poolQ`/`poolP`, and the ciphertext pool. -/
structure EvalPools where
  ringpool0 : RPoly
  ringpool1 : RPoly
  ringpool2 : RPoly
  ringpool3 : RPoly
  ringpool4 : RPoly
  keyswitchpool0 : RPoly
  ctxpool : Elem
deriving DecidableEq

/-- Translated from `decomposeAndSplitNTT`: runs the decomposer on the
coefficient-domain polynomial, then for each of the first `level+1` main-chain
rows either copies the NTT-domain input row (inside the digit's own modulus
range) or NTT-transforms the decomposed row, and NTT-transforms the P part.
The Q output holds the pool rows (zero after the caller zeroes the pool) above
the level. -/
def decomposeAndSplitNTT (ctx : Ctx) (ext : ExtOps) (lvl dIdx : Nat)
    (c2NTT c2InvNTT : RPoly) (c2QiQBuf : RPoly) : RPoly × RPoly :=
  let d := ext.decompose lvl dIdx c2InvNTT
  let st := dIdx * ctx.alpha
  let ed := st + ext.xalpha dIdx
  let qOut := mapWithIdx (fun x r =>
    if x ≤ lvl then
      (if st ≤ x ∧ x < ed then c2NTT.getD x []
       else ext.nttRow (ctx.Qm.getD x 0) (d.1.getD x []))
    else r) 0 c2QiQBuf
  (qOut, ext.nttP d.2)

/-- Ceil-divided digit count `beta = ceil((level+1)/alpha)`. -/
def betaOf (ctx : Ctx) (lvl : Nat) : Nat := (lvl + ctx.alpha) / ctx.alpha

/-- Translated from the P-chain accumulation loop of `switchKeysInPlace`:
`pool P` row `j` gains `MRed(key row(levels+j), c2QiP row j)` without reduction. -/
def accumPRows (ctx : Ctx) (keyPoly c2QiP pP : RPoly) : RPoly :=
  mapWithIdx (fun j r =>
    zip3With (fun k c acc => (acc + mred k c (ctx.Pm.getD j 0)) % R64)
      (keyPoly.getD (ctx.levels + j) []) (c2QiP.getD j []) r) 0 pP

/-- Translated from the digit loop body of `switchKeysInPlace`: decompose digit
`i`, accumulate onto the four partial sums, and reduce when `i % 8 == 1`. -/
def skAccumStep (ctx : Ctx) (ext : ExtOps) (lvl : Nat) (cx c2 : RPoly)
    (key : SwitchingKey) (st : RPoly × RPoly × RPoly × RPoly) (i : Nat) :
    Option (RPoly × RPoly × RPoly × RPoly) := do
  let (p2Q, p3Q, p2P, p3P) := st
  let dg := key.digits.getD i ([], [])
  let (c2QiQ, c2QiP) := decomposeAndSplitNTT ctx ext lvl i cx c2 (zeroQ ctx)
  let p2Q ← mulCoeffsMontgomeryAndAddNoModLvlO ctx.Qm lvl dg.1 c2QiQ p2Q
  let p3Q ← mulCoeffsMontgomeryAndAddNoModLvlO ctx.Qm lvl dg.2 c2QiQ p3Q
  let p2P := accumPRows ctx dg.1 c2QiP p2P
  let p3P := accumPRows ctx dg.2 c2QiP p3P
  if i % 8 = 1 then
    some (reduceLvl ctx.Qm lvl p2Q, reduceLvl ctx.Qm lvl p3Q,
      reduceFull ctx.Pm p2P, reduceFull ctx.Pm p3P)
  else
    some (p2Q, p3Q, p2P, p3P)

/-- Translated from `switchKeysInPlace`: zeroes the `poolQ`/`poolP` scratch
polynomials, moves `cx` out of the NTT domain into `keyswitchpool[0]`, folds the
digit loop, applies the trailing reduction when the cadence missed it, divides
the auxiliary chain out through the basis extender and adds the two partial sums
into the output ciphertext's components at the receiver's level. -/
def switchKeysInPlace (ctx : Ctx) (ext : ExtOps) (pools : EvalPools)
    (cx : RPoly) (key : SwitchingKey) (ctOut : Elem) : Option Elem := do
  if 2 ≤ ctOut.value.length then
    let lvl := elLevel ctOut
    let c2 := onFirstCopy (lvl + 1) (ext.invNTTLvl lvl cx) pools.keyswitchpool0
    let beta := betaOf ctx lvl
    let stF ← (List.range beta).foldlM (skAccumStep ctx ext lvl cx c2 key)
      (zeroQ ctx, zeroQ ctx, zeroP ctx, zeroP ctx)
    let (p2Q, p3Q, p2P, p3P) :=
      if (beta - 1) % 8 ≠ 1 then
        (reduceLvl ctx.Qm lvl stF.1, reduceLvl ctx.Qm lvl stF.2.1,
          reduceFull ctx.Pm stF.2.2.1, reduceFull ctx.Pm stF.2.2.2)
      else stF
    let p2Q := ext.modDownSplitedNTT lvl p2Q p2P
    let p3Q := ext.modDownSplitedNTT lvl p3Q p3P
    let v0 ← addLvl ctx.Qm lvl (ctOut.value.getD 0 []) p2Q (ctOut.value.getD 0 [])
    let v1 ← addLvl ctx.Qm lvl (ctOut.value.getD 1 []) p3Q (ctOut.value.getD 1 [])
    some { ctOut with value := (ctOut.value.set 0 v0).set 1 v1 }
  else none

/-! ## Add/Sub and their scale alignment (src/unnamed/part_002) -/

/-- Which operand, if any, the receiver aliases (`ctOut == c0` / `ctOut == c1`). -/
inductive EvalAlias | distinct | outIsC0 | outIsC1
deriving DecidableEq

/-- A failed evaluator call: an explicit `panic` with its message, or an abort on
malformed data (out-of-range indexing). -/
inductive Fail | panicked (msg : String) | aborted
deriving DecidableEq

/-- Lift an optional result into the failure monad, mapping `none` to an abort. -/
def liftO {α : Type} : Option α → Except Fail α
  | some a => .ok a
  | none => .error .aborted

/-- Go's `uint64(x)` conversion applied to a nonnegative scale ratio: the floor. -/
def ratFloorNat (x : ℚ) : Nat := (⌊x⌋).toNat

/-- Whether the first `dMax+1` parts of an element all have at least `lvl+1` rows. -/
def partsLvlOk (el : Elem) (dMax lvl : Nat) : Bool :=
  (List.range (dMax + 1)).all (fun u => decide (lvl + 1 ≤ (el.value.getD u []).length))

/-- Modelled from the spec: `ckksElement.Resize` truncates the part list to
`degree+1` parts, or extends it with fresh zero polynomials sized to the
element's current level. -/
def resizeElem (ctx : Ctx) (el : Elem) (deg : Nat) : Elem :=
  if deg + 1 < el.value.length then { el with value := el.value.take (deg + 1) }
  else { el with value :=
    el.value ++ List.replicate (deg + 1 - el.value.length) (zeroPoly (elLevel el + 1) ctx.N) }

/-- Translated from `DropLevel`: a level-0 element is returned unchanged (the
returned error is ignored by the callers modelled here); otherwise every part is
truncated by `levels` rows.  Asking for more levels than available under-flows
the `uint64` slice bound in Go and aborts. -/
def dropLevelElem (el : Elem) (levels : Nat) : Option Elem :=
  if elLevel el = 0 then some el
  else if levels ≤ elLevel el then
    some { el with value := el.value.map (fun p => p.take (elLevel el + 1 - levels)) }
  else none

/-- Translated from `MultByConst` for a `uint64` constant (the only path
`evaluateInPlace` uses): every part of the input is multiplied coefficientwise by
the Montgomery image of `c mod qi` over the first `min(levels)+1` rows, and the
output scale becomes the input scale (the constant needs no extra scaling). -/
def multByConstInt (ctx : Ctx) (c : Nat) (ct ctOut : Elem) : Option Elem :=
  let lvl := min (elLevel ct) (elLevel ctOut)
  if lvl + 1 ≤ ctx.Qm.length ∧ ct.value.length ≤ ctOut.value.length
      ∧ partsLvlOk ct (ct.value.length - 1) lvl = true
      ∧ partsLvlOk ctOut (ct.value.length - 1) lvl = true then
    let v := mapWithIdx (fun u p =>
      if u < ct.value.length then
        onFirst1 (fun q r => r.map (fun a => mred a (mform (c % q) q) q)) ctx.Qm (lvl + 1)
          (ct.value.getD u []) p
      else p) 0 ctOut.value
    some { ctOut with scaleV := ct.scaleV, value := v }
  else none

/-- The common tail of `evaluateInPlace`: combine the aligned operands part by
part over the first `lvl+1` rows, set the receiver scale to the max of the two
current operand scales, and copy the excess-degree parts of the higher-degree
operand when the receiver does not already hold them. -/
def applyEvalParts (ctx : Ctx) (evalOp : Nat → Nat → Nat → Nat) (lvl minD : Nat)
    (t0 t1 out : Elem) : Option Elem :=
  if minD + 1 ≤ t0.value.length ∧ minD + 1 ≤ t1.value.length ∧ minD + 1 ≤ out.value.length
      ∧ lvl + 1 ≤ ctx.Qm.length ∧ partsLvlOk t0 minD lvl = true
      ∧ partsLvlOk t1 minD lvl = true ∧ partsLvlOk out minD lvl = true then
    let v := mapWithIdx (fun u p =>
      if u ≤ minD then
        onFirst2 (fun q r1 r2 => List.zipWith (evalOp q) r1 r2) ctx.Qm (lvl + 1)
          (t0.value.getD u []) (t1.value.getD u []) p
      else p) 0 out.value
    some { out with value := v }
  else none

/-- Copy parts `minD+1 … maxD` of the source over the receiver at level `lvl`. -/
def copyParts (lvl minD maxD : Nat) (src out : Elem) : Option Elem :=
  if maxD + 1 ≤ src.value.length ∧ maxD + 1 ≤ out.value.length
      ∧ partsLvlOk src maxD lvl = true ∧ partsLvlOk out maxD lvl = true then
    let v := mapWithIdx (fun u p =>
      if minD + 1 ≤ u ∧ u ≤ maxD then onFirstCopy (lvl + 1) (src.value.getD u []) p
      else p) 0 out.value
    some { out with value := v }
  else none

/-- Tail of `evaluateInPlace` after scale alignment: the combining loop, the
final `SetScale(max(scale0, scale1))` and the excess-part copy guarded by the
receiver-aliasing tests (`tmp0 != ctOut`, `tmp1 != ctOut`). -/
def evalTail (ctx : Ctx) (evalOp : Nat → Nat → Nat → Nat) (lvl minD maxD : Nat)
    (t0 t1 out : Elem) (s0cur s1cur : ℚ) (d0cur d1cur : Nat)
    (t0IsOut t1IsOut : Bool) : Option Elem := do
  let out ← applyEvalParts ctx evalOp lvl minD t0 t1 out
  let out := { out with scaleV := max s0cur s1cur }
  if d1cur < d0cur ∧ t0IsOut = false then copyParts lvl minD maxD t0 out
  else if d0cur < d1cur ∧ t1IsOut = false then copyParts lvl minD maxD t1 out
  else some out

/-- Translated from `evaluateInPlace`: computes the common level and degrees,
resizes the receiver to the max degree, drops its level to the min of the
operand levels, aligns the lower-scale operand by multiplying it with the
integer ratio of the scales (through the ciphertext pool, or in place when the
receiver is the lower-scale operand), combines, sets the scale to the max, and
copies the excess-degree parts. -/
def evaluateInPlace (ctx : Ctx) (evalOp : Nat → Nat → Nat → Nat) (al : EvalAlias)
    (c0 c1 outIn pool : Elem) : Option Elem := do
  let l01 := min (elLevel c0) (elLevel c1)
  let lvl := min l01 (elLevel outIn)
  let maxD := max (elDegree c0) (elDegree c1)
  let minD := min (elDegree c0) (elDegree c1)
  let out1 := resizeElem ctx outIn maxD
  let out2 ←
    if l01 ≤ elLevel out1 then dropLevelElem out1 (elLevel out1 - l01)
    else if elLevel out1 = 0 then some out1
    else none
  match al with
  | .outIsC0 =>
      if c1.scaleV < out2.scaleV then do
        let r := ratFloorNat (out2.scaleV / c1.scaleV)
        let t1 ← if r ≠ 0 then multByConstInt ctx r c1 pool else some pool
        evalTail ctx evalOp lvl minD maxD out2 t1 out2 out2.scaleV c1.scaleV
          (elDegree out2) (elDegree c1) true false
      else if out2.scaleV < c1.scaleV then do
        let r := ratFloorNat (c1.scaleV / out2.scaleV)
        let o3 ← if r ≠ 0 then multByConstInt ctx r out2 out2 else some out2
        let o3 := { o3 with scaleV := c1.scaleV }
        evalTail ctx evalOp lvl minD maxD o3 c1 o3 o3.scaleV c1.scaleV
          (elDegree o3) (elDegree c1) true false
      else
        evalTail ctx evalOp lvl minD maxD out2 c1 out2 out2.scaleV c1.scaleV
          (elDegree out2) (elDegree c1) true false
  | .outIsC1 =>
      if c0.scaleV < out2.scaleV then do
        let r := ratFloorNat (out2.scaleV / c0.scaleV)
        let t0 ← if r ≠ 0 then multByConstInt ctx r c0 pool else some pool
        evalTail ctx evalOp lvl minD maxD t0 out2 out2 c0.scaleV out2.scaleV
          (elDegree c0) (elDegree out2) false true
      else if out2.scaleV < c0.scaleV then do
        let r := ratFloorNat (c0.scaleV / out2.scaleV)
        let o3 ← if r ≠ 0 then multByConstInt ctx r out2 out2 else some out2
        let o3 := { o3 with scaleV := c0.scaleV }
        evalTail ctx evalOp lvl minD maxD c0 o3 o3 c0.scaleV o3.scaleV
          (elDegree c0) (elDegree o3) false true
      else
        evalTail ctx evalOp lvl minD maxD c0 out2 out2 c0.scaleV out2.scaleV
          (elDegree c0) (elDegree out2) false true
  | .distinct =>
      if c0.scaleV < c1.scaleV then do
        let r := ratFloorNat (c1.scaleV / c0.scaleV)
        let t0 ← if r ≠ 0 then multByConstInt ctx r c0 pool else some pool
        evalTail ctx evalOp lvl minD maxD t0 c1 out2 c0.scaleV c1.scaleV
          (elDegree c0) (elDegree c1) false false
      else if c1.scaleV < c0.scaleV then do
        let r := ratFloorNat (c0.scaleV / c1.scaleV)
        let t1 ← if r ≠ 0 then multByConstInt ctx r c1 pool else some pool
        evalTail ctx evalOp lvl minD maxD c0 t1 out2 c0.scaleV c1.scaleV
          (elDegree c0) (elDegree c1) false false
      else
        evalTail ctx evalOp lvl minD maxD c0 c1 out2 c0.scaleV c1.scaleV
          (elDegree c0) (elDegree c1) false false

/-- Negate parts `lo … hi` of the element in place at level `lvl` (`NegLvl`). -/
def negParts (ctx : Ctx) (lvl lo hi : Nat) (out : Elem) : Option Elem :=
  if hi + 1 ≤ out.value.length ∧ lvl + 1 ≤ ctx.Qm.length
      ∧ partsLvlOk out hi lvl = true then
    let v := mapWithIdx (fun u p =>
      if lo ≤ u ∧ u ≤ hi then onFirst1 (fun q r => r.map (negC q)) ctx.Qm (lvl + 1) p p
      else p) 0 out.value
    some { out with value := v }
  else none

/-- Translated from `getElemAndCheckBinary`: the panics shared by `Add` and `Sub`. -/
def checkBinary (c0 c1 outIn : Elem) : Except Fail Unit :=
  if elDegree c0 + elDegree c1 = 0 then
    .error (.panicked "operands cannot be both plaintext")
  else if elDegree outIn < max (elDegree c0) (elDegree c1) then
    .error (.panicked "receiver operand degree is too small")
  else .ok ()

/-- Translated from `Evaluator.Add`. -/
def addCkks (ctx : Ctx) (al : EvalAlias) (c0 c1 outIn pool : Elem) : Except Fail Elem := do
  let _ ← checkBinary c0 c1 outIn
  liftO (evaluateInPlace ctx addC al c0 c1 outIn pool)

/-- Translated from `Evaluator.Sub`: `evaluateInPlace` with the subtraction row
operation, then negation of the excess parts when the second operand has the
higher degree (degrees and levels re-read from the possibly mutated elements). -/
def subCkks (ctx : Ctx) (al : EvalAlias) (c0 c1 outIn pool : Elem) : Except Fail Elem := do
  let _ ← checkBinary c0 c1 outIn
  let res ← liftO (evaluateInPlace ctx subC al c0 c1 outIn pool)
  let d0cur := if al = .outIsC0 then elDegree res else elDegree c0
  let d1cur := if al = .outIsC1 then elDegree res else elDegree c1
  let l0cur := if al = .outIsC0 then elLevel res else elLevel c0
  let l1cur := if al = .outIsC1 then elLevel res else elLevel c1
  let lvl := min (min l0cur l1cur) (elLevel res)
  if d0cur < d1cur then liftO (negParts ctx lvl (d0cur + 1) d1cur res)
  else pure res

/-- A residue row multiplied pointwise by an integer constant modulo `q`. -/
def scaledRow (q c : Nat) (r : Row) : Row := r.map (fun a => a * c % q)

/-- The C7 claim, stated directly over the inputs of `evaluateInPlace` with a
dedicated receiver: the result's level is the min of the operand levels and the
receiver's level, its degree the max of the operand degrees, its scale the max
of the operand scales; on the shared parts the operands are combined pointwise
after the lower-scale operand is multiplied by the integer ratio of the scales
rounded down, and the excess parts of the (scale-aligned) higher-degree operand
are copied, negated exactly when `negExcessC1` is set and the second operand has
the higher degree (the `Sub` case). -/
def evalSpecDistinct (ctx : Ctx) (op : Nat → Nat → Nat → Nat) (negExcessC1 : Bool)
    (c0 c1 outIn : Elem) : Elem :=
  let lvl := min (min (elLevel c0) (elLevel c1)) (elLevel outIn)
  let maxD := max (elDegree c0) (elDegree c1)
  let minD := min (elDegree c0) (elDegree c1)
  let row0 : Nat → Nat → Row := fun u i =>
    if c0.scaleV < c1.scaleV then
      scaledRow (ctx.Qm.getD i 0) (ratFloorNat (c1.scaleV / c0.scaleV))
        ((c0.value.getD u []).getD i [])
    else (c0.value.getD u []).getD i []
  let row1 : Nat → Nat → Row := fun u i =>
    if c1.scaleV < c0.scaleV then
      scaledRow (ctx.Qm.getD i 0) (ratFloorNat (c0.scaleV / c1.scaleV))
        ((c1.value.getD u []).getD i [])
    else (c1.value.getD u []).getD i []
  { value := (List.range (maxD + 1)).map (fun u =>
      (List.range (lvl + 1)).map (fun i =>
        if u ≤ minD then List.zipWith (op (ctx.Qm.getD i 0)) (row0 u i) (row1 u i)
        else if elDegree c1 < elDegree c0 then row0 u i
        else if negExcessC1 then (row1 u i).map (negC (ctx.Qm.getD i 0))
        else row1 u i)),
    scaleV := max c0.scaleV c1.scaleV,
    isNTT := outIn.isNTT }

/-- Well-formedness of an element: at least one part, and every part carries
exactly `level+1` residue rows (the shared-level invariant of the data model)
with every level within the modulus chain. -/
def elemWF (ctx : Ctx) (el : Elem) : Prop :=
  el.value ≠ [] ∧ (∀ p ∈ el.value, p.length = elLevel el + 1) ∧ elLevel el < ctx.Qm.length

/-- All moduli of a chain are odd primes greater than one (the invariant the
parameter provider guarantees; only oddness and nontriviality are needed). -/
def oddModuli (m : List Nat) : Prop := ∀ q ∈ m, 1 < q ∧ q % 2 = 1

/-! ## CKS share generation (src/dckks/keyswitching.go) -/

/-- Product of the special primes (`ringP.ModulusBigint`). -/
def prodP (Pm : List Nat) : Nat := Pm.foldl (· * ·) 1

/-- The ring primitives used by the CKS protocol whose code is not under src/. -/
structure CksExt where
  nttQP : RPoly → RPoly
  modDownSplitNTTPQ : Nat → RPoly → RPoly → RPoly

/-- The scratch polynomials owned by a `CKSProtocol` instance that
`genShareDelta` touches: `tmp` (QP ring) and `hP` (P ring). -/
structure CksState where
  tmp : RPoly
  hP : RPoly
deriving DecidableEq

/-- The state of a freshly allocated `CKSProtocol` (`NewCKSProtocol` creates the
scratch polynomials with `NewPoly`, hence zero). -/
def newCksState (ctx : Ctx) : CksState := { tmp := zeroQP ctx, hP := zeroP ctx }

/-- Translated from `genShareDelta`: multiply `ct[1]` by the key difference in
Montgomery form at the ciphertext's level, scale by the product of the special
primes, overwrite `tmp` with the freshly drawn Gaussian `noise` lifted to the QP
NTT domain, add its Q rows into the share, accumulate its P rows onto `hP`
(plain `uint64` addition), divide the special chain back out through the basis
extender, and zero `tmp` and `hP` before returning. -/
def genShareDelta (ctx : Ctx) (cext : CksExt) (noise skDelta : RPoly)
    (ct : Elem) (shareOut : RPoly) (st : CksState) : Option (RPoly × CksState) := do
  if 2 ≤ ct.value.length then
    let lvl := elLevel ct
    let s1 ← mulCoeffsMontgomeryLvlO ctx.Qm lvl (ct.value.getD 1 []) skDelta shareOut
    let s2 ← mulScalarLvlO ctx.Qm lvl (prodP ctx.Pm) s1 s1
    let tmp := cext.nttQP noise
    let s3 ← addLvl ctx.Qm lvl s2 tmp s2
    let hP2 := mapWithIdx (fun x r =>
      List.zipWith (fun a b => (a + b) % R64) r (tmp.getD (ctx.levels + x) [])) 0 st.hP
    let s4 := cext.modDownSplitNTTPQ lvl s3 hP2
    some (s4, { tmp := zeroQP ctx, hP := zeroP ctx })
  else none

/-! ## Rescale (src/unnamed/part_002) -/

/-- Result of `Rescale`/`RescaleMany`: success, a recoverable returned error
(carrying the untouched receiver), or a fatal panic. -/
inductive RescaleRes where
  | ok (c : Elem)
  | err (c : Elem)
  | fatal (msg : String)
deriving DecidableEq

/-- Translated from the `Rescale` loop: while the tracked scale is at least
`threshold * lastModulus / 2` and the level is not zero, divide the scale by the
last active modulus and divide every part by it through
`DivRoundByLastModulusNTT` (the abstract step `f`, which consumes one residue
row).  The fuel equals the starting level; with a one-row-per-step `f` the loop
always stops within that many iterations. -/
def rescaleLoop (Qm : List Nat) (threshold : ℚ) (f : RPoly → RPoly) :
    Nat → Elem → Elem
  | 0, c => c
  | fuel + 1, c =>
    if threshold * (Qm.getD (elLevel c) 0 : ℚ) / 2 ≤ c.scaleV ∧ elLevel c ≠ 0 then
      rescaleLoop Qm threshold f fuel
        (Elem.mk (c.value.map f) (c.scaleV / (Qm.getD (elLevel c) 0 : ℚ)) c.isNTT)
    else c

/-- Translated from `Evaluator.Rescale`: a level-0 input returns a recoverable
error leaving the receiver untouched; a level mismatch with the receiver panics;
if the scale is at least `threshold * lastModulus / 2` the input must be in the
NTT domain (panic otherwise) and the division loop runs on a copy of the input;
otherwise the input is copied to the output unchanged. -/
def rescale (Qm : List Nat) (threshold : ℚ) (f : RPoly → RPoly)
    (ct0 c1 : Elem) : RescaleRes :=
  if elLevel ct0 = 0 then .err c1
  else if elLevel ct0 ≠ elLevel c1 then .fatal "cannot rescale, receiver level mismatch"
  else if threshold * (Qm.getD (elLevel c1) 0 : ℚ) / 2 ≤ ct0.scaleV then
    if ct0.isNTT = false then .fatal "cannot rescale, input not in NTT"
    else .ok (rescaleLoop Qm threshold f (elLevel ct0) ct0)
  else .ok ct0

/-- Translated from `Evaluator.RescaleMany`: a level smaller than the requested
number of rescales returns a recoverable error leaving the receiver untouched; a
level mismatch or a non-NTT input panics; otherwise the scale is divided by the
product of the `n` last active moduli and every part is divided `n` times, with
no per-step threshold check (`DivRoundByLastModulusManyNTT`, modelled from the
spec as the `n`-fold iterate of the single division step). -/
def rescaleMany (Qm : List Nat) (f : RPoly → RPoly) (ct0 c1 : Elem)
    (n : Nat) : RescaleRes :=
  if elLevel ct0 < n then .err c1
  else if elLevel ct0 ≠ elLevel c1 then .fatal "cannot rescale many, receiver level mismatch"
  else if ct0.isNTT = false then .fatal "cannot rescale many, input not in NTT"
  else .ok (Elem.mk (ct0.value.map (fun p => f^[n] p))
      (ct0.scaleV / ((List.range n).map (fun i => ((Qm.getD (elLevel ct0 - i) 0 : Nat) : ℚ))).prod)
      ct0.isNTT)

/-! ## MulRelin (src/unnamed/part_002) -/

/-- Translated from the multiplication core of `MulRelin`: the Montgomery
products of the two degree-1 operands written into the three chosen destination
buffers, with the squaring shortcut (`el0 == el1`) doubling the cross term. -/
def mulTriple (ctx : Ctx) (sq : Bool) (lvl : Nat) (c00 c01 : RPoly)
    (el1 : Elem) (b0 b1 b2 : RPoly) : Option (RPoly × RPoly × RPoly) :=
  if sq = true then
    match mulCoeffsMontgomeryLvlO ctx.Qm lvl c00 (el1.value.getD 0 []) b0,
          mulCoeffsMontgomeryLvlO ctx.Qm lvl c00 (el1.value.getD 1 []) b1 with
    | some r0, some r1 =>
      match addLvl ctx.Qm lvl r1 r1 r1,
            mulCoeffsMontgomeryLvlO ctx.Qm lvl c01 (el1.value.getD 1 []) b2 with
      | some r1d, some r2 => some (r0, r1d, r2)
      | _, _ => none
    | _, _ => none
  else
    match mulCoeffsMontgomeryLvlO ctx.Qm lvl c00 (el1.value.getD 0 []) b0,
          mulCoeffsMontgomeryLvlO ctx.Qm lvl c00 (el1.value.getD 1 []) b1 with
    | some r0, some r1 =>
      match mulCoeffsMontgomeryAndAddNoModLvlO ctx.Qm lvl c01 (el1.value.getD 0 []) r1 with
      | some r1d =>
        match mulCoeffsMontgomeryLvlO ctx.Qm lvl c01 (el1.value.getD 1 []) b2 with
        | some r2 => some (r0, r1d, r2)
        | none => none
      | none => none
    | _, _ => none

/-- Translated from the relinearization tail of `MulRelin`: copy the two low
products into the receiver's parts (`d0`/`d1` are the current contents of those
parts) and fold the degree-2 product `rs.2.2` through `switchKeysInPlace`. -/
def mulRelinKeyTail (ctx : Ctx) (ext : ExtOps) (pools : EvalPools) (lvl : Nat)
    (key : SwitchingKey) (rs : RPoly × RPoly × RPoly) (d0 d1 : RPoly)
    (out3 : Elem) : Except Fail Elem :=
  match copyLvl lvl rs.1 d0, copyLvl lvl rs.2.1 d1 with
  | some v0, some v1 =>
    match switchKeysInPlace ctx ext pools rs.2.2 key
        (Elem.mk ((out3.value.set 0 v0).set 1 v1) out3.scaleV out3.isNTT) with
    | some e => .ok e
    | none => .error .aborted
  | _, _ => .error .aborted

/-- Translated from the ciphertext-times-ciphertext branch of `MulRelin`: the
buffers for the three products depend on whether the receiver aliases an input
(pools 2, 3, 4) or not (the receiver's own parts, with pool 4 or a freshly
resized third part for the degree-2 product depending on the evaluation key);
with a key the products are copied back and the degree-2 product relinearized,
without one the receiver is resized to degree 2 and receives all three. -/
def mulRelinCtCt (ctx : Ctx) (ext : ExtOps) (pools : EvalPools) (al : EvalAlias)
    (sq : Bool) (evakey : Option SwitchingKey) (lvl : Nat) (el0 el1 : Elem)
    (out3 : Elem) : Except Fail Elem :=
  match al, evakey with
  | .distinct, some key =>
    match mformLvlO ctx.Qm lvl (el0.value.getD 0 []) pools.ringpool0,
          mformLvlO ctx.Qm lvl (el0.value.getD 1 []) pools.ringpool1 with
    | some c00, some c01 =>
      match mulTriple ctx sq lvl c00 c01 el1 (out3.value.getD 0 [])
          (out3.value.getD 1 []) pools.ringpool4 with
      | some rs => mulRelinKeyTail ctx ext pools lvl key rs rs.1 rs.2.1 out3
      | none => .error .aborted
    | _, _ => .error .aborted
  | .distinct, none =>
    let outR := resizeElem ctx out3 2
    match mformLvlO ctx.Qm lvl (el0.value.getD 0 []) pools.ringpool0,
          mformLvlO ctx.Qm lvl (el0.value.getD 1 []) pools.ringpool1 with
    | some c00, some c01 =>
      match mulTriple ctx sq lvl c00 c01 el1 (outR.value.getD 0 [])
          (outR.value.getD 1 []) (outR.value.getD 2 []) with
      | some rs =>
        .ok (Elem.mk (((outR.value.set 0 rs.1).set 1 rs.2.1).set 2 rs.2.2)
          outR.scaleV outR.isNTT)
      | none => .error .aborted
    | _, _ => .error .aborted
  | _, some key =>
    match mformLvlO ctx.Qm lvl (el0.value.getD 0 []) pools.ringpool0,
          mformLvlO ctx.Qm lvl (el0.value.getD 1 []) pools.ringpool1 with
    | some c00, some c01 =>
      match mulTriple ctx sq lvl c00 c01 el1 pools.ringpool2 pools.ringpool3
          pools.ringpool4 with
      | some rs => mulRelinKeyTail ctx ext pools lvl key rs
          (out3.value.getD 0 []) (out3.value.getD 1 []) out3
      | none => .error .aborted
    | _, _ => .error .aborted
  | _, none =>
    match mformLvlO ctx.Qm lvl (el0.value.getD 0 []) pools.ringpool0,
          mformLvlO ctx.Qm lvl (el0.value.getD 1 []) pools.ringpool1 with
    | some c00, some c01 =>
      match mulTriple ctx sq lvl c00 c01 el1 pools.ringpool2 pools.ringpool3
          pools.ringpool4 with
      | some rs =>
        let outR := resizeElem ctx out3 2
        match copyLvl lvl rs.1 (outR.value.getD 0 []),
              copyLvl lvl rs.2.1 (outR.value.getD 1 []),
              copyLvl lvl rs.2.2 (outR.value.getD 2 []) with
        | some v0, some v1, some v2 =>
          .ok (Elem.mk (((outR.value.set 0 v0).set 1 v1).set 2 v2)
            outR.scaleV outR.isNTT)
        | _, _, _ => .error .aborted
      | none => .error .aborted
    | _, _ => .error .aborted

/-- Translated from `Evaluator.MulRelin`: the binary operand checks, the
receiver level drop to the common level, the degree and NTT panics, the output
scale set to the product of the operand scales, and the
ciphertext-times-ciphertext or plaintext-times-ciphertext multiplication. -/
def mulRelin (ctx : Ctx) (ext : ExtOps) (pools : EvalPools) (al : EvalAlias)
    (sq : Bool) (evakey : Option SwitchingKey) (c0 c1 outIn : Elem) :
    Except Fail Elem :=
  if elDegree c0 + elDegree c1 = 0 then
    .error (.panicked "operands cannot be both plaintext")
  else if elDegree outIn < max (elDegree c0) (elDegree c1) then
    .error (.panicked "receiver operand degree is too small")
  else
    let lvl := min (min (elLevel c0) (elLevel c1)) (elLevel outIn)
    match (if lvl < elLevel outIn then dropLevelElem outIn (elLevel outIn - lvl)
           else some outIn) with
    | none => .error .aborted
    | some out2 =>
      let el0 := if al = .outIsC0 then out2 else c0
      let el1 := if sq = true then el0 else if al = .outIsC1 then out2 else c1
      if 1 < elDegree el0 ∨ 1 < elDegree el1 then
        .error (.panicked "cannot mul, input element and output element must be of degree 0 or 1")
      else if el0.isNTT = false then
        .error (.panicked "cannot mul, op0 must be in NTT to multiply")
      else if el1.isNTT = false then
        .error (.panicked "cannot mul, op1 must be in NTT to multiply")
      else
        let out3 := Elem.mk out2.value (c0.scaleV * c1.scaleV) out2.isNTT
        if elDegree el0 + elDegree el1 = 2 then
          mulRelinCtCt ctx ext pools al sq evakey lvl el0 el1 out3
        else
          let tmp0 := if elDegree el0 = 1 then el1 else el0
          let tmp1 := if elDegree el0 = 1 then el0 else el1
          match mformLvlO ctx.Qm lvl (tmp0.value.getD 0 []) (zeroQ ctx) with
          | none => .error .aborted
          | some c00 =>
            match mulCoeffsMontgomeryLvlO ctx.Qm lvl c00 (tmp1.value.getD 0 [])
                (out3.value.getD 0 []),
              mulCoeffsMontgomeryLvlO ctx.Qm lvl c00 (tmp1.value.getD 1 [])
                (out3.value.getD 1 []) with
            | some v0, some v1 =>
              .ok (Elem.mk ((out3.value.set 0 v0).set 1 v1) out3.scaleV out3.isNTT)
            | _, _ => .error .aborted

/-- Translated from `Evaluator.MulRelinNew`: a fresh degree-1 receiver at the
minimum of the operand levels (its constructor scale is overwritten by
`MulRelin`'s `SetScale`), then `MulRelin` with it as a receiver distinct from
both operands. -/
def mulRelinNew (ctx : Ctx) (ext : ExtOps) (pools : EvalPools) (sq : Bool)
    (evakey : Option SwitchingKey) (c0 c1 : Elem) : Except Fail Elem :=
  mulRelin ctx ext pools .distinct sq evakey c0 c1
    (Elem.mk [zeroPoly (min (elLevel c0) (elLevel c1) + 1) ctx.N,
        zeroPoly (min (elLevel c0) (elLevel c1) + 1) ctx.N]
      (c0.scaleV + c1.scaleV) true)

/-! ## RotateColumns (src/unnamed/part_002) -/

/-- The rotation keys of an evaluator: per-amount left/right switching keys
(`nil` when not generated, hence `Option`) and the permutation index tables. -/
structure RotationKeys where
  evakeyRotColLeft : Nat → Option SwitchingKey
  evakeyRotColRight : Nat → Option SwitchingKey
  permuteNTTLeftIndex : Nat → List Nat
  permuteNTTRightIndex : Nat → List Nat

/-- Translated from `Evaluator.permuteNTT`: permute both parts of the input
(`ring.PermuteNTTWithIndex`, modelled from the spec as the abstract `permute` of
the ring interface, a full overwrite of the destination), routed through
`ringpool[0]`/`ringpool[1]` when the receiver aliases the input so that only the
first `level+1` rows of the receiver are replaced, and fold the switching key
into the result through `switchKeysInPlace` on part 1. -/
def permuteNTT (ctx : Ctx) (ext : ExtOps) (pools : EvalPools) (aliased : Bool)
    (ct0 : Elem) (index : List Nat) (key : SwitchingKey) (ctOut : Elem) :
    Option Elem :=
  if 2 ≤ ct0.value.length ∧ 2 ≤ ctOut.value.length then
    let lvl := min (elLevel ct0) (elLevel ctOut)
    let p0 := ext.permute (ct0.value.getD 0 []) index
    let p1 := ext.permute (ct0.value.getD 1 []) index
    match (if aliased = true then copyLvl lvl p0 (ctOut.value.getD 0 [])
           else copyLvl lvl p0 p0),
          (if aliased = true then copyLvl lvl p1 (ctOut.value.getD 1 [])
           else copyLvl lvl p1 p1) with
    | some v0, some v1 =>
      switchKeysInPlace ctx ext pools v1 key
        (Elem.mk ((ctOut.value.set 0 v0).set 1 v1) ctOut.scaleV ctOut.isNTT)
    | _, _ => none
  else none

/-- Translated from the bit loop of `rotateColumnsPow2`: while `k > 0`, apply
the power-of-two rotation `evakeyIndex` in place when the low bit of `k` is set
(a missing key is a nil dereference in Go, hence `none`), then double the index
and halve `k`. -/
def rotPow2Loop (ctx : Ctx) (ext : ExtOps) (pools : EvalPools)
    (idxMap : Nat → List Nat) (keyMap : Nat → Option SwitchingKey)
    (evakeyIndex : Nat) (k : Nat) (cur : Elem) : Option Elem :=
  if k = 0 then some cur
  else
    match (if k % 2 = 1 then
            match keyMap evakeyIndex with
            | some key => permuteNTT ctx ext pools true cur (idxMap evakeyIndex) key cur
            | none => none
          else some cur) with
    | some cur2 => rotPow2Loop ctx ext pools idxMap keyMap (evakeyIndex * 2) (k / 2) cur2
    | none => none
termination_by k
decreasing_by omega

/-- Translated from `rotateColumnsPow2`: copy the input's two parts into the
receiver at the common level, then run the bit loop starting at key index 1. -/
def rotateColumnsPow2 (ctx : Ctx) (ext : ExtOps) (pools : EvalPools)
    (idxMap : Nat → List Nat) (keyMap : Nat → Option SwitchingKey)
    (k : Nat) (ct0 ctOut : Elem) : Option Elem :=
  let lvl := min (elLevel ct0) (elLevel ctOut)
  match copyLvl lvl (ct0.value.getD 0 []) (ctOut.value.getD 0 []),
        copyLvl lvl (ct0.value.getD 1 []) (ctOut.value.getD 1 []) with
  | some v0, some v1 =>
    rotPow2Loop ctx ext pools idxMap keyMap 1 k
      (Elem.mk ((ctOut.value.set 0 v0).set 1 v1) ctOut.scaleV ctOut.isNTT)
  | _, _ => none

/-- Population count of a natural number (`utils.HammingWeight64`). -/
def hammingWeight (n : Nat) : Nat :=
  if n = 0 then 0 else n % 2 + hammingWeight (n / 2)
termination_by n
decreasing_by omega

/-- Translated from the ladder check of `RotateColumns`: every power of two
below `N/2` must have both its left and its right rotation key generated (the
Go loop runs over `i = 1, 2, 4, ... < n/2`; the range bound `N` covers every
such exponent since `t < 2^t`). -/
def hasPow2Rotations (ctx : Ctx) (rk : RotationKeys) : Bool :=
  (List.range ctx.N).all (fun t =>
    if 2 ^ t < ctx.N / 2 then
      ((rk.evakeyRotColLeft (2 ^ t)).isSome && (rk.evakeyRotColRight (2 ^ t)).isSome)
    else true)

/-- Translated from `Evaluator.RotateColumns`: panic unless both ciphertexts
have degree 1; reduce the amount by the mask `N/2 - 1`; on zero copy the input
to the receiver (`ckksElement.Copy`, modelled from the spec as a full copy, so
the result is the input element); otherwise set the receiver scale to the input
scale and either apply the exact left key, or decompose over the power-of-two
ladder choosing the direction of smaller Hamming weight (ties to the left), or
panic when neither is available. -/
def rotateColumns (ctx : Ctx) (ext : ExtOps) (pools : EvalPools)
    (ct0 : Elem) (k : Nat) (rk : RotationKeys) (ctOut : Elem) :
    Except Fail Elem :=
  if elDegree ct0 ≠ 1 ∨ elDegree ctOut ≠ 1 then
    .error (.panicked "cannot rotate, input and output ciphertext must be of degree 1")
  else
    let k2 := k &&& (ctx.N / 2 - 1)
    if k2 = 0 then .ok ct0
    else
      let out1 := Elem.mk ctOut.value ct0.scaleV ctOut.isNTT
      match rk.evakeyRotColLeft k2 with
      | some key =>
        liftO (permuteNTT ctx ext pools false ct0 (rk.permuteNTTLeftIndex k2) key out1)
      | none =>
        if hasPow2Rotations ctx rk = true then
          if hammingWeight k2 ≤ hammingWeight (ctx.N / 2 - k2) then
            liftO (rotateColumnsPow2 ctx ext pools rk.permuteNTTLeftIndex
              rk.evakeyRotColLeft k2 ct0 out1)
          else
            liftO (rotateColumnsPow2 ctx ext pools rk.permuteNTTRightIndex
              rk.evakeyRotColRight (ctx.N / 2 - k2) ct0 out1)
        else
          .error (.panicked
            "cannot rotate, specific rotation and pow2 rotations have not been generated")

/-! ## Helper lemmas on the row-limited operations -/

theorem onFirst2_length (f : Nat → Row → Row → Row) :
    ∀ (m : List Nat) (k : Nat) (p1 p2 pOut : RPoly),
      (onFirst2 f m k p1 p2 pOut).length = pOut.length := by
  intro m k p1 p2 pOut
  induction m generalizing k p1 p2 pOut with
  | nil => cases k <;> simp [onFirst2]
  | cons q m ih =>
    cases k with
    | zero => simp [onFirst2]
    | succ k =>
      cases p1 with
      | nil => simp [onFirst2]
      | cons r1 p1 =>
        cases p2 with
        | nil => simp [onFirst2]
        | cons r2 p2 =>
          cases pOut with
          | nil => simp [onFirst2]
          | cons r3 pOut => simp [onFirst2, ih]

theorem onFirst2_getD_lt (f : Nat → Row → Row → Row) :
    ∀ (m : List Nat) (k : Nat) (p1 p2 pOut : RPoly) (i : Nat),
      i < k → i < m.length → i < p1.length → i < p2.length → i < pOut.length →
      (onFirst2 f m k p1 p2 pOut).getD i [] = f (m.getD i 0) (p1.getD i []) (p2.getD i []) := by
  intro m k p1 p2 pOut i
  induction m generalizing k p1 p2 pOut i with
  | nil => intro _ him; simp at him
  | cons q m ih =>
    intro hik him hi1 hi2 hiO
    cases k with
    | zero => omega
    | succ k =>
      cases p1 with
      | nil => simp at hi1
      | cons r1 p1 =>
        cases p2 with
        | nil => simp at hi2
        | cons r2 p2 =>
          cases pOut with
          | nil => simp at hiO
          | cons r3 pOut =>
            cases i with
            | zero => simp [onFirst2]
            | succ i =>
              simp only [onFirst2, List.getD_cons_succ]
              exact ih k p1 p2 pOut i (by omega) (by simpa using him)
                (by simpa using hi1) (by simpa using hi2) (by simpa using hiO)

theorem onFirstCopy_getD_lt :
    ∀ (k : Nat) (src dst : RPoly) (i : Nat),
      i < k → i < src.length → i < dst.length →
      (onFirstCopy k src dst).getD i [] = src.getD i [] := by
  intro k
  induction k with
  | zero => intro src dst i h; omega
  | succ k ih =>
    intro src dst i hik his hid
    cases src with
    | nil => simp at his
    | cons r src =>
      cases dst with
      | nil => simp at hid
      | cons r2 dst =>
        cases i with
        | zero => simp [onFirstCopy]
        | succ i =>
          simp only [onFirstCopy, List.getD_cons_succ]
          exact ih src dst i (by omega) (by simpa using his) (by simpa using hid)

theorem onFirstCopy_length :
    ∀ (k : Nat) (src dst : RPoly), (onFirstCopy k src dst).length = dst.length := by
  intro k
  induction k with
  | zero => intro src dst; simp [onFirstCopy]
  | succ k ih =>
    intro src dst
    cases src with
    | nil => simp [onFirstCopy]
    | cons r src =>
      cases dst with
      | nil => simp [onFirstCopy]
      | cons r2 dst => simp [onFirstCopy, ih]

theorem addLvl_eq_some (m : List Nat) (lvl : Nat) (p1 p2 pOut : RPoly)
    (h1 : lvl + 1 ≤ p1.length) (h2 : lvl + 1 ≤ p2.length)
    (hO : lvl + 1 ≤ pOut.length) (hm : lvl + 1 ≤ m.length) :
    addLvl m lvl p1 p2 pOut
      = some (onFirst2 (fun q r1 r2 => List.zipWith (addC q) r1 r2) m (lvl + 1) p1 p2 pOut) := by
  unfold addLvl
  rw [if_pos ⟨h1, h2, hO, hm⟩]

theorem copyLvl_eq_some (lvl : Nat) (src dst : RPoly)
    (h1 : lvl + 1 ≤ src.length) (h2 : lvl + 1 ≤ dst.length) :
    copyLvl lvl src dst = some (onFirstCopy (lvl + 1) src dst) := by
  unfold copyLvl
  rw [if_pos ⟨h1, h2⟩]

theorem addC_comm (q a b : Nat) : addC q a b = addC q b a := by
  simp [addC, Nat.add_comm]

theorem addC_assoc (q a b c : Nat) : addC q (addC q a b) c = addC q a (addC q b c) := by
  unfold addC
  rw [Nat.mod_add_mod, Nat.add_mod_mod, Nat.add_assoc]

theorem zipWith_addC_comm (q : Nat) (r1 r2 : Row) :
    List.zipWith (addC q) r1 r2 = List.zipWith (addC q) r2 r1 :=
  List.zipWith_comm_of_comm (addC q) (addC_comm q) r1 r2

theorem zipWith_addC_assoc (q : Nat) :
    ∀ (r1 r2 r3 : Row),
      List.zipWith (addC q) (List.zipWith (addC q) r1 r2) r3
        = List.zipWith (addC q) r1 (List.zipWith (addC q) r2 r3) := by
  intro r1
  induction r1 with
  | nil => intro r2 r3; simp
  | cons a r1 ih =>
    intro r2 r3
    cases r2 with
    | nil => simp
    | cons b r2 =>
      cases r3 with
      | nil => simp
      | cons c r3 => simp [addC_assoc, ih]

theorem addPoly_comm : ∀ (m : List Nat) (p1 p2 : RPoly),
    addPoly m p1 p2 = addPoly m p2 p1 := by
  intro m
  induction m with
  | nil => intro p1 p2; cases p1 <;> cases p2 <;> simp [addPoly]
  | cons q m ih =>
    intro p1 p2
    cases p1 with
    | nil => cases p2 <;> simp [addPoly]
    | cons r1 p1 =>
      cases p2 with
      | nil => simp [addPoly]
      | cons r2 p2 => simp [addPoly, zipWith_addC_comm, ih]

theorem addPoly_assoc : ∀ (m : List Nat) (p1 p2 p3 : RPoly),
    addPoly m (addPoly m p1 p2) p3 = addPoly m p1 (addPoly m p2 p3) := by
  intro m
  induction m with
  | nil => intro p1 p2 p3; simp [addPoly]
  | cons q m ih =>
    intro p1 p2 p3
    cases p1 with
    | nil => simp [addPoly]
    | cons r1 p1 =>
      cases p2 with
      | nil => simp [addPoly]
      | cons r2 p2 =>
        cases p3 with
        | nil => simp [addPoly]
        | cons r3 p3 => simp [addPoly, zipWith_addC_assoc, ih]

theorem addPoly_length : ∀ (m : List Nat) (p1 p2 : RPoly),
    p1.length = m.length → p2.length = m.length → (addPoly m p1 p2).length = m.length := by
  intro m
  induction m with
  | nil => intro p1 p2 h1 _; simp [addPoly]
  | cons q m ih =>
    intro p1 p2 h1 h2
    cases p1 with
    | nil => simp at h1
    | cons r1 p1 =>
      cases p2 with
      | nil => simp at h2
      | cons r2 p2 =>
        simp only [addPoly, List.length_cons]
        rw [ih p1 p2 (by simpa using h1) (by simpa using h2)]

theorem onFirst2_full_addPoly :
    ∀ (m : List Nat) (p1 p2 pOut : RPoly),
      p1.length = m.length → p2.length = m.length → pOut.length = m.length →
      onFirst2 (fun q r1 r2 => List.zipWith (addC q) r1 r2) m m.length p1 p2 pOut
        = addPoly m p1 p2 := by
  intro m
  induction m with
  | nil =>
    intro p1 p2 pOut _ _ hO
    cases pOut with
    | nil => simp [onFirst2, addPoly]
    | cons r pOut => simp at hO
  | cons q m ih =>
    intro p1 p2 pOut h1 h2 hO
    cases p1 with
    | nil => simp at h1
    | cons r1 p1 =>
      cases p2 with
      | nil => simp at h2
      | cons r2 p2 =>
        cases pOut with
        | nil => simp at hO
        | cons r3 pOut =>
          simp only [List.length_cons, onFirst2, addPoly]
          rw [ih p1 p2 pOut (by simpa using h1) (by simpa using h2) (by simpa using hO)]

/-! ## C1: the sparse ternary sampler -/

/-- C1 (code bug): reading the sparse sampler (`NewTernarySamplerSparse` with
`hw = 2`) into the zero polynomial over `N = 4`, modulus 5, with position draws
`j = 0` each round and sign bits `(0, 1)`, writes the values `matrixValues[bit]`
with `bit ∈ {0,1}`, so the 0 bit stores the coefficient 0: the output has a
single nonzero coefficient instead of the documented `min(hw, N) = 2`, and no
coefficient ever receives the `-1` image `matrixValues[2] = q - 1 = 4`. -/
theorem C1_sampleSparse_failing_input :
    sampleSparse 4 [5] false 2 (fun _ => 0) (fun i => i == 1) [[0, 0, 0, 0]]
      = [[0, 0, 0, 1]] ∧
    nonzeroCount ((sampleSparse 4 [5] false 2 (fun _ => 0) (fun i => i == 1)
      [[0, 0, 0, 0]]).getD 0 []) = 1 ∧
    min 2 4 = 2 ∧ (1 : Nat) ≠ 2 ∧
    (matrixValues false 5).2.2 = 4 ∧
    (∀ b : Bool, sparseWrittenValue false 5 b ≠ 4) := by
  refine ⟨?_, ?_, ?_, ?_, ?_, ?_⟩ <;> decide

/-! ## C2: share aggregation -/

/-- C2 counterexample: with a two-row first share and a one-row second share the
code adds at level `len(share1) - 1 = 1` and aborts on the missing second row,
while the claimed min-length combination is defined. -/
theorem C2_aggregateShares_counterexample :
    aggregateShares [5, 7] [[1], [2]] [[3]] [[0], [0]] = none ∧
    aggregateSharesClaimed [5, 7] [[1], [2]] [[3]] [[0], [0]] = [[4], [0]] := by
  constructor <;> decide

/-- C2 (amended): `AggregateShares` adds pointwise modulo each prime over the first
`len(share1)` residue rows (which on well-formed equal-length shares, as produced
by `AllocateShare`, coincides with the min of the two lengths); on such shares the
combination is total, pointwise modular addition, commutative and associative, and
preserves the share length, so any aggregation order or tree topology of the same
multiset of shares yields the same combined share. -/
theorem C2_aggregateShares_amended (m : List Nat) (s1 s2 out : RPoly)
    (h1 : s1.length = m.length) (h2 : s2.length = m.length)
    (hout : out.length = m.length) (hm : 0 < m.length) :
    aggregateShares m s1 s2 out = some (addPoly m s1 s2) ∧
    addPoly m s1 s2 = addPoly m s2 s1 ∧
    (∀ s3 : RPoly, addPoly m (addPoly m s1 s2) s3 = addPoly m s1 (addPoly m s2 s3)) ∧
    (addPoly m s1 s2).length = m.length := by
  refine ⟨?_, addPoly_comm m s1 s2, fun s3 => addPoly_assoc m s1 s2 s3,
    addPoly_length m s1 s2 h1 h2⟩
  unfold aggregateShares addLvl
  have hlen : s1.length - 1 + 1 = m.length := by omega
  rw [if_pos (by omega)]
  rw [hlen, onFirst2_full_addPoly m s1 s2 out h1 h2 hout]

/-- Witness for C2 (amended) at two-row shares modulo 5 and 7. -/
theorem C2_aggregateShares_amended_witness :
    aggregateShares [5, 7] [[2, 3], [6, 1]] [[4, 4], [3, 6]] [[0, 0], [0, 0]]
        = some (addPoly [5, 7] [[2, 3], [6, 1]] [[4, 4], [3, 6]]) ∧
    addPoly [5, 7] [[2, 3], [6, 1]] [[4, 4], [3, 6]]
        = addPoly [5, 7] [[4, 4], [3, 6]] [[2, 3], [6, 1]] ∧
    (∀ s3 : RPoly, addPoly [5, 7] (addPoly [5, 7] [[2, 3], [6, 1]] [[4, 4], [3, 6]]) s3
        = addPoly [5, 7] [[2, 3], [6, 1]] (addPoly [5, 7] [[4, 4], [3, 6]] s3)) ∧
    (addPoly [5, 7] [[2, 3], [6, 1]] [[4, 4], [3, 6]]).length = 2 :=
  C2_aggregateShares_amended [5, 7] [[2, 3], [6, 1]] [[4, 4], [3, 6]] [[0, 0], [0, 0]]
    (by decide) (by decide) (by decide) (by decide)

/-! ## C3: the final key switch -/

/-- C3: `CKSProtocol.KeySwitch` produces an output whose first component is the
pointwise modular sum of `ct[0]` and the combined share over the first
`ct.Level()+1` residue rows, whose second component agrees with `ct[1]` on those
rows, and whose scale equals the input ciphertext's scale. -/
theorem C3_keySwitch (m : List Nat) (combined : RPoly) (ct ctOut : Elem)
    (hct : 2 ≤ ct.value.length) (hout : 2 ≤ ctOut.value.length)
    (h0 : elLevel ct + 1 ≤ (ct.value.getD 0 []).length)
    (h1 : elLevel ct + 1 ≤ (ct.value.getD 1 []).length)
    (hcomb : elLevel ct + 1 ≤ combined.length)
    (ho0 : elLevel ct + 1 ≤ (ctOut.value.getD 0 []).length)
    (ho1 : elLevel ct + 1 ≤ (ctOut.value.getD 1 []).length)
    (hm : elLevel ct + 1 ≤ m.length) :
    ∃ res : Elem, keySwitch m combined ct ctOut = some res ∧
      res.scaleV = ct.scaleV ∧
      res.value.length = ctOut.value.length ∧
      (∀ i ≤ elLevel ct, (res.value.getD 0 []).getD i []
          = List.zipWith (addC (m.getD i 0)) ((ct.value.getD 0 []).getD i [])
              (combined.getD i [])) ∧
      (∀ i ≤ elLevel ct, (res.value.getD 1 []).getD i []
          = (ct.value.getD 1 []).getD i []) := by
  unfold keySwitch
  rw [if_pos ⟨hct, hout⟩, addLvl_eq_some m (elLevel ct) _ _ _ h0 hcomb ho0 hm,
    copyLvl_eq_some (elLevel ct) _ _ h1 ho1]
  refine ⟨_, rfl, rfl, ?_, ?_, ?_⟩
  · have h2 : 1 < ctOut.value.length := by omega
    simp [List.length_set]
  · intro i hi
    have hset : ((ctOut.value.set 0
        (onFirst2 (fun q r1 r2 => List.zipWith (addC q) r1 r2) m (elLevel ct + 1)
          (ct.value.getD 0 []) combined (ctOut.value.getD 0 []))).set 1
        (onFirstCopy (elLevel ct + 1) (ct.value.getD 1 []) (ctOut.value.getD 1 []))).getD 0 []
        = onFirst2 (fun q r1 r2 => List.zipWith (addC q) r1 r2) m (elLevel ct + 1)
          (ct.value.getD 0 []) combined (ctOut.value.getD 0 []) := by
      rw [List.getD_eq_getElem?_getD, List.getElem?_set_ne (by omega),
        List.getElem?_set_self (by omega)]
      simp
    simp only [hset]
    exact onFirst2_getD_lt _ m (elLevel ct + 1) _ combined _ i (by omega) (by omega)
      (by omega) (by omega) (by omega)
  · intro i hi
    have hset : ((ctOut.value.set 0
        (onFirst2 (fun q r1 r2 => List.zipWith (addC q) r1 r2) m (elLevel ct + 1)
          (ct.value.getD 0 []) combined (ctOut.value.getD 0 []))).set 1
        (onFirstCopy (elLevel ct + 1) (ct.value.getD 1 []) (ctOut.value.getD 1 []))).getD 1 []
        = onFirstCopy (elLevel ct + 1) (ct.value.getD 1 []) (ctOut.value.getD 1 []) := by
      rw [List.getD_eq_getElem?_getD, List.getElem?_set_self (by simp; omega)]
      simp
    simp only [hset]
    exact onFirstCopy_getD_lt (elLevel ct + 1) _ _ i (by omega) (by omega) (by omega)

/-- Witness for C3 at a one-modulus, level-0 instance. -/
theorem C3_keySwitch_witness :
    ∃ res : Elem,
      keySwitch [5] [[2]] ⟨[[[1]], [[3]]], 2, true⟩ ⟨[[[0]], [[0]]], 1, false⟩ = some res ∧
      res.scaleV = (⟨[[[1]], [[3]]], 2, true⟩ : Elem).scaleV ∧
      res.value.length = (⟨[[[0]], [[0]]], 1, false⟩ : Elem).value.length ∧
      (∀ i ≤ elLevel ⟨[[[1]], [[3]]], 2, true⟩, (res.value.getD 0 []).getD i []
          = List.zipWith (addC ([5].getD i 0))
              (((⟨[[[1]], [[3]]], 2, true⟩ : Elem).value.getD 0 []).getD i [])
              ([[2]].getD i [])) ∧
      (∀ i ≤ elLevel ⟨[[[1]], [[3]]], 2, true⟩, (res.value.getD 1 []).getD i []
          = ((⟨[[[1]], [[3]]], 2, true⟩ : Elem).value.getD 1 []).getD i []) :=
  C3_keySwitch [5] [[2]] ⟨[[[1]], [[3]]], 2, true⟩ ⟨[[[0]], [[0]]], 1, false⟩
    (by decide) (by decide) (by decide) (by decide) (by decide) (by decide) (by decide)
    (by decide)

/-! ## Montgomery arithmetic and indexing lemmas -/

theorem coprime_R64 (q : Nat) (hodd : q % 2 = 1) : Nat.Coprime R64 q := by
  have h2 : Nat.Coprime 2 q := by
    unfold Nat.Coprime
    rw [Nat.gcd_rec, hodd]
    exact Nat.gcd_one_left 2
  exact Nat.Coprime.pow_left 64 h2

/-- Montgomery cancellation: multiplying by the Montgomery form of a constant and
reducing with `MRed` is plain modular multiplication by the constant. -/
theorem mred_mform (a c q : Nat) (hq : 1 < q) (hodd : q % 2 = 1) :
    mred a (mform c q) q = a * c % q := by
  have hne : NeZero q := ⟨by omega⟩
  have hunit : IsUnit ((R64 : Nat) : ZMod q) :=
    (ZMod.isUnit_iff_coprime R64 q).mpr (coprime_R64 q hodd)
  have hcast : ((a * (c * R64 % q) * rinv q : Nat) : ZMod q) = ((a * c : Nat) : ZMod q) := by
    push_cast
    rw [ZMod.natCast_mod]
    have hr : ((rinv q : Nat) : ZMod q) = (((R64 : Nat) : ZMod q))⁻¹ :=
      ZMod.natCast_rightInverse _
    rw [hr]
    have hRR : ((R64 : Nat) : ZMod q) * (((R64 : Nat) : ZMod q))⁻¹ = 1 :=
      ZMod.mul_inv_of_unit _ hunit
    push_cast
    calc (a : ZMod q) * ((c : ZMod q) * ((R64 : Nat) : ZMod q)) * (((R64 : Nat) : ZMod q))⁻¹
        = (a : ZMod q) * (c : ZMod q)
            * (((R64 : Nat) : ZMod q) * (((R64 : Nat) : ZMod q))⁻¹) := by ring
      _ = (a : ZMod q) * (c : ZMod q) := by rw [hRR, mul_one]
  exact (ZMod.natCast_eq_natCast_iff _ _ _).mp hcast

theorem mul_mod_reduce_right (a c q : Nat) : a * (c % q) % q = a * c % q :=
  Nat.ModEq.mul_left a (Nat.mod_modEq c q)

/-- The coefficient written by `MultByConst` for a `uint64` constant equals plain
modular multiplication by the constant, for an odd modulus greater than one. -/
theorem mred_mform_const (a c q : Nat) (hq : 1 < q) (hodd : q % 2 = 1) :
    mred a (mform (c % q) q) q = a * c % q := by
  rw [mred_mform a (c % q) q hq hodd, mul_mod_reduce_right]

theorem mapWithIdx_length {α : Type} (f : Nat → α → α) :
    ∀ (s : Nat) (l : List α), (mapWithIdx f s l).length = l.length := by
  intro s l
  induction l generalizing s with
  | nil => simp [mapWithIdx]
  | cons a l ih => simp [mapWithIdx, ih]

theorem mapWithIdx_getD {α : Type} (f : Nat → α → α) (d : α) :
    ∀ (s : Nat) (l : List α) (i : Nat), i < l.length →
      (mapWithIdx f s l).getD i d = f (s + i) (l.getD i d) := by
  intro s l
  induction l generalizing s with
  | nil => intro i hi; simp at hi
  | cons a l ih =>
    intro i hi
    cases i with
    | zero => simp [mapWithIdx]
    | succ i =>
      simp only [mapWithIdx, List.getD_cons_succ]
      rw [ih (s + 1) i (by simpa using hi)]
      ring_nf

theorem onFirst1_length (f : Nat → Row → Row) :
    ∀ (m : List Nat) (k : Nat) (p1 pOut : RPoly),
      (onFirst1 f m k p1 pOut).length = pOut.length := by
  intro m k p1 pOut
  induction m generalizing k p1 pOut with
  | nil => cases k <;> simp [onFirst1]
  | cons q m ih =>
    cases k with
    | zero => simp [onFirst1]
    | succ k =>
      cases p1 with
      | nil => simp [onFirst1]
      | cons r1 p1 =>
        cases pOut with
        | nil => simp [onFirst1]
        | cons r2 pOut => simp [onFirst1, ih]

theorem onFirst1_getD_lt (f : Nat → Row → Row) :
    ∀ (m : List Nat) (k : Nat) (p1 pOut : RPoly) (i : Nat),
      i < k → i < m.length → i < p1.length → i < pOut.length →
      (onFirst1 f m k p1 pOut).getD i [] = f (m.getD i 0) (p1.getD i []) := by
  intro m k p1 pOut i
  induction m generalizing k p1 pOut i with
  | nil => intro _ him; simp at him
  | cons q m ih =>
    intro hik him hi1 hiO
    cases k with
    | zero => omega
    | succ k =>
      cases p1 with
      | nil => simp at hi1
      | cons r1 p1 =>
        cases pOut with
        | nil => simp at hiO
        | cons r2 pOut =>
          cases i with
          | zero => simp [onFirst1]
          | succ i =>
            simp only [onFirst1, List.getD_cons_succ]
            exact ih k p1 pOut i (by omega) (by simpa using him)
              (by simpa using hi1) (by simpa using hiO)

theorem oddModuli_getD (m : List Nat) (h : oddModuli m) (i : Nat) (hi : i < m.length) :
    1 < m.getD i 0 ∧ m.getD i 0 % 2 = 1 := by
  have hmem : m.getD i 0 ∈ m := by
    rw [List.getD_eq_getElem m 0 hi]
    exact List.getElem_mem hi
  exact h _ hmem

theorem getD_mem_of_lt {α : Type} (l : List α) (d : α) (i : Nat) (hi : i < l.length) :
    l.getD i d ∈ l := by
  rw [List.getD_eq_getElem l d hi]
  exact List.getElem_mem hi

theorem partsLvlOk_true (el : Elem) (dMax lvl : Nat)
    (h : ∀ u, u ≤ dMax → lvl + 1 ≤ (el.value.getD u []).length) :
    partsLvlOk el dMax lvl = true := by
  unfold partsLvlOk
  rw [List.all_eq_true]
  intro u hu
  rw [List.mem_range] at hu
  exact decide_eq_true (h u (by omega))

/-- Characterization of `MultByConst` with a `uint64` constant: the written parts
are the source parts multiplied pointwise by the constant modulo each prime
over the first `min(levels)+1` rows, the untouched pool parts are preserved, and
the scale becomes the source scale. -/
theorem multByConstInt_spec (ctx : Ctx) (c : Nat) (ct pool : Elem)
    (hodd : oddModuli ctx.Qm)
    (hwf : ∀ p ∈ ct.value, p.length = elLevel ct + 1)
    (hne : ct.value ≠ [])
    (hlq : elLevel ct < ctx.Qm.length)
    (hparts : ct.value.length ≤ pool.value.length)
    (hpwf : ∀ p ∈ pool.value, p.length = elLevel pool + 1) :
    ∃ res, multByConstInt ctx c ct pool = some res ∧
      res.scaleV = ct.scaleV ∧ res.isNTT = pool.isNTT ∧
      res.value.length = pool.value.length ∧
      (∀ u, u < ct.value.length →
        (res.value.getD u []).length = elLevel pool + 1 ∧
        ∀ i, i ≤ min (elLevel ct) (elLevel pool) →
          (res.value.getD u []).getD i []
            = scaledRow (ctx.Qm.getD i 0) c ((ct.value.getD u []).getD i [])) ∧
      (∀ u, ct.value.length ≤ u → (res.value.getD u []) = pool.value.getD u []) := by
  have hctlen : ∀ u, u < ct.value.length → (ct.value.getD u []).length = elLevel ct + 1 :=
    fun u hu => hwf _ (getD_mem_of_lt ct.value [] u hu)
  have hplen : ∀ u, u < pool.value.length → (pool.value.getD u []).length = elLevel pool + 1 :=
    fun u hu => hpwf _ (getD_mem_of_lt pool.value [] u hu)
  have hminl : min (elLevel ct) (elLevel pool) ≤ elLevel ct := Nat.min_le_left _ _
  have hminr : min (elLevel ct) (elLevel pool) ≤ elLevel pool := Nat.min_le_right _ _
  have hctpos : 0 < ct.value.length := List.length_pos.mpr hne
  have hg1 : min (elLevel ct) (elLevel pool) + 1 ≤ ctx.Qm.length := by omega
  have hg3 : partsLvlOk ct (ct.value.length - 1) (min (elLevel ct) (elLevel pool)) = true := by
    apply partsLvlOk_true
    intro u hu
    rw [hctlen u (by omega)]
    omega
  have hg4 : partsLvlOk pool (ct.value.length - 1) (min (elLevel ct) (elLevel pool)) = true := by
    apply partsLvlOk_true
    intro u hu
    rw [hplen u (by omega)]
    omega
  have heq : multByConstInt ctx c ct pool
      = some (Elem.mk (mapWithIdx (fun u p =>
          if u < ct.value.length then
            onFirst1 (fun q r => r.map (fun a => mred a (mform (c % q) q) q)) ctx.Qm
              (min (elLevel ct) (elLevel pool) + 1) (ct.value.getD u []) p
          else p) 0 pool.value) ct.scaleV pool.isNTT) := by
    unfold multByConstInt
    rw [if_pos ⟨hg1, hparts, hg3, hg4⟩]
  refine ⟨_, heq, rfl, rfl, ?_, ?_, ?_⟩
  · simp only [mapWithIdx_length]
  · intro u hu
    have hupool : u < pool.value.length := by omega
    have hrow : (mapWithIdx (fun u p =>
        if u < ct.value.length then
          onFirst1 (fun q r => r.map (fun a => mred a (mform (c % q) q) q)) ctx.Qm
            (min (elLevel ct) (elLevel pool) + 1) (ct.value.getD u []) p
        else p) 0 pool.value).getD u []
        = onFirst1 (fun q r => r.map (fun a => mred a (mform (c % q) q) q)) ctx.Qm
            (min (elLevel ct) (elLevel pool) + 1) (ct.value.getD u []) (pool.value.getD u []) := by
      rw [mapWithIdx_getD _ _ 0 pool.value u hupool]
      simp [hu]
    constructor
    · rw [hrow, onFirst1_length, hplen u hupool]
    · intro i hi
      rw [hrow]
      rw [onFirst1_getD_lt _ ctx.Qm _ _ _ i (by omega) (by omega)
        (by rw [hctlen u hu]; omega) (by rw [hplen u hupool]; omega)]
      obtain ⟨hq1, hq2⟩ := oddModuli_getD ctx.Qm hodd i (by omega)
      have hfun : (fun a => mred a (mform (c % ctx.Qm.getD i 0) (ctx.Qm.getD i 0))
          (ctx.Qm.getD i 0)) = (fun a => a * c % ctx.Qm.getD i 0) :=
        funext (fun a => mred_mform_const a c _ hq1 hq2)
      rw [hfun]
      rfl
  · intro u hu
    by_cases hupool : u < pool.value.length
    · rw [mapWithIdx_getD _ _ 0 pool.value u hupool]
      simp [Nat.not_lt.mpr hu]
    · rw [List.getD_eq_default, List.getD_eq_default]
      · omega
      · rw [mapWithIdx_length]; omega

theorem rangeMap_getD {α : Type} (f : Nat → α) (n u : Nat) (d : α) (hu : u < n) :
    ((List.range n).map f).getD u d = f u := by
  rw [List.getD_eq_getElem _ _ (by simpa using hu)]
  simp

theorem headD_take {α : Type} (l : List α) (k : Nat) (d : α) :
    (l.take (k + 1)).headD d = l.headD d := by
  cases l <;> simp

theorem ratFloorNat_ne_zero (a b : ℚ) (ha : 0 < a) (hab : a < b) :
    ratFloorNat (b / a) ≠ 0 := by
  have h1 : (1 : ℚ) ≤ b / a := by
    rw [le_div_iff₀ ha]
    linarith
  have h2 : (1 : ℤ) ≤ ⌊b / a⌋ := Int.le_floor.mpr (by exact_mod_cast h1)
  unfold ratFloorNat
  omega

theorem resizeElem_eq_take (ctx : Ctx) (outIn : Elem) (maxD : Nat)
    (hdeg : maxD ≤ elDegree outIn) (hne : outIn.value ≠ []) :
    resizeElem ctx outIn maxD
      = Elem.mk (outIn.value.take (maxD + 1)) outIn.scaleV outIn.isNTT := by
  have hlen : outIn.value.length = elDegree outIn + 1 := by
    unfold elDegree
    have : 0 < outIn.value.length := List.length_pos.mpr hne
    omega
  unfold resizeElem
  by_cases hc : maxD + 1 < outIn.value.length
  · rw [if_pos hc]
  · rw [if_neg hc]
    have hle : outIn.value.length ≤ maxD + 1 := by omega
    have h1 : maxD + 1 - outIn.value.length = 0 := by omega
    rw [h1]
    simp [List.take_of_length_le hle]

theorem resizeElem_level (ctx : Ctx) (outIn : Elem) (maxD : Nat)
    (hdeg : maxD ≤ elDegree outIn) (hne : outIn.value ≠ []) :
    elLevel (resizeElem ctx outIn maxD) = elLevel outIn := by
  rw [resizeElem_eq_take ctx outIn maxD hdeg hne]
  unfold elLevel
  simp only
  rw [headD_take]

/-- The receiver preparation of `evaluateInPlace`: resize to the maximal degree
and drop to the minimal operand level, producing truncation on both axes. -/
theorem outPrep_eq (ctx : Ctx) (outIn : Elem) (maxD l01 : Nat)
    (hdeg : maxD ≤ elDegree outIn)
    (hlvl : l01 ≤ elLevel outIn)
    (hne : outIn.value ≠ [])
    (hwf : ∀ p ∈ outIn.value, p.length = elLevel outIn + 1) :
    (if l01 ≤ elLevel (resizeElem ctx outIn maxD)
     then dropLevelElem (resizeElem ctx outIn maxD)
       (elLevel (resizeElem ctx outIn maxD) - l01)
     else if elLevel (resizeElem ctx outIn maxD) = 0 then some (resizeElem ctx outIn maxD)
     else none)
    = some (Elem.mk ((outIn.value.take (maxD + 1)).map (fun p => p.take (l01 + 1)))
        outIn.scaleV outIn.isNTT) := by
  have hlen : outIn.value.length = elDegree outIn + 1 := by
    unfold elDegree
    have : 0 < outIn.value.length := List.length_pos.mpr hne
    omega
  have hres : resizeElem ctx outIn maxD
      = Elem.mk (outIn.value.take (maxD + 1)) outIn.scaleV outIn.isNTT := by
    unfold resizeElem
    by_cases hc : maxD + 1 < outIn.value.length
    · rw [if_pos hc]
    · rw [if_neg hc]
      have hle : outIn.value.length ≤ maxD + 1 := by omega
      have h1 : maxD + 1 - outIn.value.length = 0 := by omega
      rw [h1]
      simp [List.take_of_length_le hle]
  have hlevel : elLevel (resizeElem ctx outIn maxD) = elLevel outIn := by
    rw [hres]
    unfold elLevel
    simp only
    rw [headD_take]
  rw [if_pos (by omega)]
  unfold dropLevelElem
  rw [hlevel]
  by_cases hz : elLevel outIn = 0
  · rw [if_pos hz]
    rw [hres]
    have hl01 : l01 = 0 := by omega
    subst hl01
    congr 1
    ext1
    · simp only
      rw [List.map_congr_left, List.map_id]
      intro p hp
      have hmem : p ∈ outIn.value := List.mem_of_mem_take hp
      have := hwf p hmem
      rw [hz] at this
      exact List.take_of_length_le (by omega)
    · rfl
    · rfl
  · rw [if_neg hz, if_pos (by omega)]
    rw [hres]
    have harith : elLevel outIn + 1 - (elLevel outIn - l01) = l01 + 1 := by omega
    simp only [harith]

theorem list_ext_getD {α : Type} (l1 l2 : List α) (d : α)
    (hlen : l1.length = l2.length)
    (h : ∀ i, i < l1.length → l1.getD i d = l2.getD i d) : l1 = l2 := by
  apply List.ext_getElem hlen
  intro i h1 h2
  have hi := h i h1
  rwa [List.getD_eq_getElem _ _ h1, List.getD_eq_getElem _ _ h2] at hi

theorem applyEvalParts_eq_some (ctx : Ctx) (op : Nat → Nat → Nat → Nat)
    (lvl minD : Nat) (t0 t1 out : Elem)
    (h0 : minD + 1 ≤ t0.value.length) (h1 : minD + 1 ≤ t1.value.length)
    (hO : minD + 1 ≤ out.value.length) (hq : lvl + 1 ≤ ctx.Qm.length)
    (hr0 : ∀ u, u ≤ minD → lvl + 1 ≤ (t0.value.getD u []).length)
    (hr1 : ∀ u, u ≤ minD → lvl + 1 ≤ (t1.value.getD u []).length)
    (hrO : ∀ u, u ≤ minD → lvl + 1 ≤ (out.value.getD u []).length) :
    applyEvalParts ctx op lvl minD t0 t1 out
      = some (Elem.mk (mapWithIdx (fun u p =>
          if u ≤ minD then
            onFirst2 (fun q r1 r2 => List.zipWith (op q) r1 r2) ctx.Qm (lvl + 1)
              (t0.value.getD u []) (t1.value.getD u []) p
          else p) 0 out.value) out.scaleV out.isNTT) := by
  unfold applyEvalParts
  rw [if_pos ⟨h0, h1, hO, hq, partsLvlOk_true t0 minD lvl hr0,
    partsLvlOk_true t1 minD lvl hr1, partsLvlOk_true out minD lvl hrO⟩]

theorem copyParts_eq_some (lvl minD maxD : Nat) (src out : Elem)
    (h0 : maxD + 1 ≤ src.value.length) (h1 : maxD + 1 ≤ out.value.length)
    (hr0 : ∀ u, u ≤ maxD → lvl + 1 ≤ (src.value.getD u []).length)
    (hr1 : ∀ u, u ≤ maxD → lvl + 1 ≤ (out.value.getD u []).length) :
    copyParts lvl minD maxD src out
      = some (Elem.mk (mapWithIdx (fun u p =>
          if minD + 1 ≤ u ∧ u ≤ maxD then onFirstCopy (lvl + 1) (src.value.getD u []) p
          else p) 0 out.value) out.scaleV out.isNTT) := by
  unfold copyParts
  rw [if_pos ⟨h0, h1, partsLvlOk_true src maxD lvl hr0, partsLvlOk_true out maxD lvl hr1⟩]

/-- The combine-set-scale-copy tail of `evaluateInPlace`, characterised against
abstract per-part row functions for the two aligned operands. -/
theorem evalTail_eq (ctx : Ctx) (op : Nat → Nat → Nat → Nat)
    (lvl minD maxD : Nat) (t0 t1 out : Elem) (s0cur s1cur : ℚ) (d0cur d1cur : Nat)
    (row0 row1 : Nat → Nat → Row)
    (hdeg : maxD = max d0cur d1cur ∧ minD = min d0cur d1cur)
    (hq : lvl + 1 ≤ ctx.Qm.length)
    (hout_len : out.value.length = maxD + 1)
    (hout_rows : ∀ p ∈ out.value, p.length = lvl + 1)
    (h0 : minD + 1 ≤ t0.value.length) (h1 : minD + 1 ≤ t1.value.length)
    (hr0 : ∀ u, u ≤ minD → lvl + 1 ≤ (t0.value.getD u []).length)
    (hr1 : ∀ u, u ≤ minD → lvl + 1 ≤ (t1.value.getD u []).length)
    (hcopy0 : d1cur < d0cur → maxD + 1 ≤ t0.value.length
      ∧ ∀ u, u ≤ maxD → lvl + 1 ≤ (t0.value.getD u []).length)
    (hcopy1 : d0cur < d1cur → maxD + 1 ≤ t1.value.length
      ∧ ∀ u, u ≤ maxD → lvl + 1 ≤ (t1.value.getD u []).length)
    (hrow0 : ∀ u, u ≤ minD → ∀ i, i ≤ lvl → (t0.value.getD u []).getD i [] = row0 u i)
    (hrow1 : ∀ u, u ≤ minD → ∀ i, i ≤ lvl → (t1.value.getD u []).getD i [] = row1 u i)
    (hrow0x : d1cur < d0cur →
      ∀ u, u ≤ maxD → ∀ i, i ≤ lvl → (t0.value.getD u []).getD i [] = row0 u i)
    (hrow1x : d0cur < d1cur →
      ∀ u, u ≤ maxD → ∀ i, i ≤ lvl → (t1.value.getD u []).getD i [] = row1 u i) :
    evalTail ctx op lvl minD maxD t0 t1 out s0cur s1cur d0cur d1cur false false
      = some (Elem.mk ((List.range (maxD + 1)).map (fun u =>
          (List.range (lvl + 1)).map (fun i =>
            if u ≤ minD then List.zipWith (op (ctx.Qm.getD i 0)) (row0 u i) (row1 u i)
            else if d1cur < d0cur then row0 u i
            else row1 u i))) (max s0cur s1cur) out.isNTT) := by
  have houtrow : ∀ u, u < out.value.length → (out.value.getD u []).length = lvl + 1 :=
    fun u hu => hout_rows _ (getD_mem_of_lt out.value [] u hu)
  unfold evalTail
  rw [applyEvalParts_eq_some ctx op lvl minD t0 t1 out h0 h1 (by omega) hq hr0 hr1
    (fun u hu => by rw [houtrow u (by omega)])]
  simp only [bind, Option.bind]
  set A := mapWithIdx (fun u p =>
    if u ≤ minD then
      onFirst2 (fun q r1 r2 => List.zipWith (op q) r1 r2) ctx.Qm (lvl + 1)
        (t0.value.getD u []) (t1.value.getD u []) p
    else p) 0 out.value with hA
  have hAlen : A.length = maxD + 1 := by rw [hA, mapWithIdx_length, hout_len]
  have hApart : ∀ u, u < maxD + 1 → A.getD u []
      = (if u ≤ minD then
          onFirst2 (fun q r1 r2 => List.zipWith (op q) r1 r2) ctx.Qm (lvl + 1)
            (t0.value.getD u []) (t1.value.getD u []) (out.value.getD u [])
        else out.value.getD u []) := by
    intro u hu
    rw [hA, mapWithIdx_getD _ _ 0 out.value u (by omega)]
    simp
  have hApartLen : ∀ u, u < maxD + 1 → (A.getD u []).length = lvl + 1 := by
    intro u hu
    rw [hApart u hu]
    by_cases hc : u ≤ minD
    · rw [if_pos hc, onFirst2_length, houtrow u (by omega)]
    · rw [if_neg hc, houtrow u (by omega)]
  have hAshared : ∀ u, u ≤ minD → u < maxD + 1 → ∀ i, i ≤ lvl →
      (A.getD u []).getD i []
        = List.zipWith (op (ctx.Qm.getD i 0)) (row0 u i) (row1 u i) := by
    intro u hu hum i hi
    rw [hApart u hum, if_pos hu]
    rw [onFirst2_getD_lt _ ctx.Qm (lvl + 1) _ _ _ i (by omega) (by omega)
      (by have := hr0 u hu; omega) (by have := hr1 u hu; omega)
      (by have := houtrow u (by omega); omega)]
    rw [hrow0 u hu i hi, hrow1 u hu i hi]
  rcases hdeg with ⟨hmax, hmin⟩
  have valEq : ∀ (V : List RPoly),
      V.length = maxD + 1 →
      (∀ u, u < maxD + 1 → (V.getD u []).length = lvl + 1) →
      (∀ u, u < maxD + 1 → ∀ i, i ≤ lvl → (V.getD u []).getD i []
        = (if u ≤ minD then List.zipWith (op (ctx.Qm.getD i 0)) (row0 u i) (row1 u i)
           else if d1cur < d0cur then row0 u i else row1 u i)) →
      V = (List.range (maxD + 1)).map (fun u =>
          (List.range (lvl + 1)).map (fun i =>
            if u ≤ minD then List.zipWith (op (ctx.Qm.getD i 0)) (row0 u i) (row1 u i)
            else if d1cur < d0cur then row0 u i
            else row1 u i)) := by
    intro V hVlen hVrows hVvals
    apply list_ext_getD _ _ []
    · rw [hVlen, List.length_map, List.length_range]
    · intro u hu
      rw [hVlen] at hu
      rw [rangeMap_getD _ _ _ _ hu]
      apply list_ext_getD _ _ []
      · rw [hVrows u hu, List.length_map, List.length_range]
      · intro i hi
        rw [hVrows u hu] at hi
        rw [rangeMap_getD _ _ _ _ hi]
        exact hVvals u hu i (by omega)
  by_cases hcase0 : d1cur < d0cur
  · rw [if_pos ⟨hcase0, trivial⟩]
    obtain ⟨hclen, hcrows⟩ := hcopy0 hcase0
    rw [copyParts_eq_some lvl minD maxD t0 (Elem.mk A (max s0cur s1cur) out.isNTT)
      hclen (by simp only; omega) hcrows
      (by intro u hu; simp only; rw [hApartLen u (by omega)])]
    congr 1
    ext1
    all_goals simp only
    apply valEq
    · rw [mapWithIdx_length, hAlen]
    · intro u hu
      rw [mapWithIdx_getD _ _ 0 A u (by omega)]
      simp only [Nat.zero_add]
      by_cases hc : minD + 1 ≤ u ∧ u ≤ maxD
      · rw [if_pos hc, onFirstCopy_length, hApartLen u hu]
      · rw [if_neg hc, hApartLen u hu]
    · intro u hu i hi
      rw [mapWithIdx_getD _ _ 0 A u (by omega)]
      simp only [Nat.zero_add]
      by_cases hc : minD + 1 ≤ u ∧ u ≤ maxD
      · rw [if_pos hc, if_neg (by omega), if_pos hcase0]
        rw [onFirstCopy_getD_lt (lvl + 1) _ _ i (by omega)
          (by have := hcrows u (by omega); omega)
          (by rw [hApartLen u hu]; omega)]
        exact hrow0x hcase0 u (by omega) i hi
      · have hu_min : u ≤ minD := by omega
        rw [if_neg hc, if_pos hu_min]
        exact hAshared u hu_min hu i hi
  · by_cases hcase1 : d0cur < d1cur
    · rw [if_neg (by simp [hcase0]), if_pos ⟨hcase1, trivial⟩]
      obtain ⟨hclen, hcrows⟩ := hcopy1 hcase1
      rw [copyParts_eq_some lvl minD maxD t1 (Elem.mk A (max s0cur s1cur) out.isNTT)
        hclen (by simp only; omega) hcrows
        (by intro u hu; simp only; rw [hApartLen u (by omega)])]
      congr 1
      ext1
      all_goals simp only
      apply valEq
      · rw [mapWithIdx_length, hAlen]
      · intro u hu
        rw [mapWithIdx_getD _ _ 0 A u (by omega)]
        simp only [Nat.zero_add]
        by_cases hc : minD + 1 ≤ u ∧ u ≤ maxD
        · rw [if_pos hc, onFirstCopy_length, hApartLen u hu]
        · rw [if_neg hc, hApartLen u hu]
      · intro u hu i hi
        rw [mapWithIdx_getD _ _ 0 A u (by omega)]
        simp only [Nat.zero_add]
        by_cases hc : minD + 1 ≤ u ∧ u ≤ maxD
        · rw [if_pos hc, if_neg (by omega), if_neg (by omega)]
          rw [onFirstCopy_getD_lt (lvl + 1) _ _ i (by omega)
            (by have := hcrows u (by omega); omega)
            (by rw [hApartLen u hu]; omega)]
          exact hrow1x hcase1 u (by omega) i hi
        · have hu_min : u ≤ minD := by omega
          rw [if_neg hc, if_pos hu_min]
          exact hAshared u hu_min hu i hi
    · rw [if_neg (by simp [hcase0]), if_neg (by simp [hcase1])]
      congr 1
      ext1
      all_goals simp only
      apply valEq
      · exact hAlen
      · exact fun u hu => hApartLen u hu
      · intro u hu i hi
        have hu_min : u ≤ minD := by omega
        rw [if_pos hu_min]
        exact hAshared u hu_min hu i hi

/-- Main characterization of `evaluateInPlace` with a dedicated receiver: the
result equals the claim-side description `evalSpecDistinct` (no negation). -/
theorem evaluateInPlace_distinct_eq (ctx : Ctx) (op : Nat → Nat → Nat → Nat)
    (c0 c1 outIn pool : Elem)
    (hodd : oddModuli ctx.Qm)
    (hwf0 : elemWF ctx c0) (hwf1 : elemWF ctx c1) (hwfO : elemWF ctx outIn)
    (hwfP : elemWF ctx pool)
    (hs0 : 0 < c0.scaleV) (hs1 : 0 < c1.scaleV)
    (hdeg : max (elDegree c0) (elDegree c1) ≤ elDegree outIn)
    (hlvl : min (elLevel c0) (elLevel c1) ≤ elLevel outIn)
    (hplvl : min (elLevel c0) (elLevel c1) ≤ elLevel pool)
    (hpdeg : max (elDegree c0) (elDegree c1) ≤ elDegree pool) :
    evaluateInPlace ctx op .distinct c0 c1 outIn pool
      = some (evalSpecDistinct ctx op false c0 c1 outIn) := by
  obtain ⟨hne0, hrows0, hq0⟩ := hwf0
  obtain ⟨hne1, hrows1, hq1⟩ := hwf1
  obtain ⟨hneO, hrowsO, hqO⟩ := hwfO
  obtain ⟨hneP, hrowsP, hqP⟩ := hwfP
  have hlen0 : c0.value.length = elDegree c0 + 1 := by
    unfold elDegree
    have := List.length_pos.mpr hne0
    omega
  have hlen1 : c1.value.length = elDegree c1 + 1 := by
    unfold elDegree
    have := List.length_pos.mpr hne1
    omega
  have hlenO : outIn.value.length = elDegree outIn + 1 := by
    unfold elDegree
    have := List.length_pos.mpr hneO
    omega
  have hlenP : pool.value.length = elDegree pool + 1 := by
    unfold elDegree
    have := List.length_pos.mpr hneP
    omega
  have hminl : min (elLevel c0) (elLevel c1) ≤ elLevel c0 := Nat.min_le_left _ _
  have hminr : min (elLevel c0) (elLevel c1) ≤ elLevel c1 := Nat.min_le_right _ _
  have hmaxl : elDegree c0 ≤ max (elDegree c0) (elDegree c1) := Nat.le_max_left _ _
  have hmaxr : elDegree c1 ≤ max (elDegree c0) (elDegree c1) := Nat.le_max_right _ _
  have hminDl : min (elDegree c0) (elDegree c1) ≤ elDegree c0 := Nat.min_le_left _ _
  have hminDr : min (elDegree c0) (elDegree c1) ≤ elDegree c1 := Nat.min_le_right _ _
  have hminmax : min (elDegree c0) (elDegree c1) ≤ max (elDegree c0) (elDegree c1) := by omega
  simp only [evaluateInPlace]
  rw [min_eq_left hlvl]
  have hreslvl : elLevel (resizeElem ctx outIn (max (elDegree c0) (elDegree c1)))
      = elLevel outIn := resizeElem_level ctx outIn _ hdeg hneO
  have hprep := outPrep_eq ctx outIn (max (elDegree c0) (elDegree c1))
    (min (elLevel c0) (elLevel c1)) hdeg hlvl hneO hrowsO
  rw [if_pos (show min (elLevel c0) (elLevel c1)
      ≤ elLevel (resizeElem ctx outIn (max (elDegree c0) (elDegree c1))) by
    rw [hreslvl]; exact hlvl)] at hprep ⊢
  rw [hprep]
  simp only [bind, Option.bind]
  have hVlen : (((outIn.value.take (max (elDegree c0) (elDegree c1) + 1)).map
      (fun p => p.take (min (elLevel c0) (elLevel c1) + 1))).length)
      = max (elDegree c0) (elDegree c1) + 1 := by
    rw [List.length_map, List.length_take]
    omega
  have hVrows : ∀ p ∈ ((outIn.value.take (max (elDegree c0) (elDegree c1) + 1)).map
      (fun p => p.take (min (elLevel c0) (elLevel c1) + 1))),
      p.length = min (elLevel c0) (elLevel c1) + 1 := by
    intro p hp
    rw [List.mem_map] at hp
    obtain ⟨q, hq, rfl⟩ := hp
    have hqmem : q ∈ outIn.value := List.mem_of_mem_take hq
    rw [List.length_take, hrowsO q hqmem]
    omega
  have hrowlen0 : ∀ u, u < c0.value.length → (c0.value.getD u []).length = elLevel c0 + 1 :=
    fun u hu => hrows0 _ (getD_mem_of_lt c0.value [] u hu)
  have hrowlen1 : ∀ u, u < c1.value.length → (c1.value.getD u []).length = elLevel c1 + 1 :=
    fun u hu => hrows1 _ (getD_mem_of_lt c1.value [] u hu)
  have hQlen : min (elLevel c0) (elLevel c1) + 1 ≤ ctx.Qm.length := by omega
  rcases lt_trichotomy c0.scaleV c1.scaleV with hlt | heq | hgt
  · have hnlt : ¬ c1.scaleV < c0.scaleV := not_lt.mpr hlt.le
    rw [if_pos hlt]
    rw [if_pos (ratFloorNat_ne_zero c0.scaleV c1.scaleV hs0 hlt)]
    obtain ⟨t0, ht0eq, ht0s, ht0n, ht0len, ht0parts, ht0rest⟩ :=
      multByConstInt_spec ctx (ratFloorNat (c1.scaleV / c0.scaleV)) c0 pool hodd hrows0
        hne0 hq0 (by omega) hrowsP
    rw [ht0eq]
    simp only [bind, Option.bind]
    rw [evalTail_eq ctx op (min (elLevel c0) (elLevel c1))
      (min (elDegree c0) (elDegree c1)) (max (elDegree c0) (elDegree c1)) t0 c1 _
      c0.scaleV c1.scaleV (elDegree c0) (elDegree c1)
      (fun u i => scaledRow (ctx.Qm.getD i 0) (ratFloorNat (c1.scaleV / c0.scaleV))
        ((c0.value.getD u []).getD i []))
      (fun u i => (c1.value.getD u []).getD i [])
      ⟨rfl, rfl⟩ hQlen hVlen hVrows
      (by omega) (by omega)
      (fun u hu => by rw [(ht0parts u (by omega)).1]; omega)
      (fun u hu => by rw [hrowlen1 u (by omega)]; omega)
      (fun hd => ⟨by omega, fun u hu => by rw [(ht0parts u (by omega)).1]; omega⟩)
      (fun hd => ⟨by omega, fun u hu => by rw [hrowlen1 u (by omega)]; omega⟩)
      (fun u hu i hi => (ht0parts u (by omega)).2 i (by omega))
      (fun u hu i hi => rfl)
      (fun hd u hu i hi => (ht0parts u (by omega)).2 i (by omega))
      (fun hd u hu i hi => rfl)]
    unfold evalSpecDistinct
    rw [min_eq_left hlvl]
    simp only [if_pos hlt, if_neg hnlt, Bool.false_eq_true, if_false]
  · have hn1 : ¬ c0.scaleV < c1.scaleV := by rw [heq]; exact lt_irrefl _
    have hn2 : ¬ c1.scaleV < c0.scaleV := by rw [heq]; exact lt_irrefl _
    rw [if_neg hn1, if_neg hn2]
    rw [evalTail_eq ctx op (min (elLevel c0) (elLevel c1))
      (min (elDegree c0) (elDegree c1)) (max (elDegree c0) (elDegree c1)) c0 c1 _
      c0.scaleV c1.scaleV (elDegree c0) (elDegree c1)
      (fun u i => (c0.value.getD u []).getD i [])
      (fun u i => (c1.value.getD u []).getD i [])
      ⟨rfl, rfl⟩ hQlen hVlen hVrows
      (by omega) (by omega)
      (fun u hu => by rw [hrowlen0 u (by omega)]; omega)
      (fun u hu => by rw [hrowlen1 u (by omega)]; omega)
      (fun hd => ⟨by omega, fun u hu => by rw [hrowlen0 u (by omega)]; omega⟩)
      (fun hd => ⟨by omega, fun u hu => by rw [hrowlen1 u (by omega)]; omega⟩)
      (fun u hu i hi => rfl)
      (fun u hu i hi => rfl)
      (fun hd u hu i hi => rfl)
      (fun hd u hu i hi => rfl)]
    unfold evalSpecDistinct
    rw [min_eq_left hlvl]
    simp only [if_neg hn1, if_neg hn2, Bool.false_eq_true, if_false]
  · have hnlt : ¬ c0.scaleV < c1.scaleV := not_lt.mpr hgt.le
    rw [if_neg hnlt, if_pos hgt]
    rw [if_pos (ratFloorNat_ne_zero c1.scaleV c0.scaleV hs1 hgt)]
    obtain ⟨t1, ht1eq, ht1s, ht1n, ht1len, ht1parts, ht1rest⟩ :=
      multByConstInt_spec ctx (ratFloorNat (c0.scaleV / c1.scaleV)) c1 pool hodd hrows1
        hne1 hq1 (by omega) hrowsP
    rw [ht1eq]
    simp only [bind, Option.bind]
    rw [evalTail_eq ctx op (min (elLevel c0) (elLevel c1))
      (min (elDegree c0) (elDegree c1)) (max (elDegree c0) (elDegree c1)) c0 t1 _
      c0.scaleV c1.scaleV (elDegree c0) (elDegree c1)
      (fun u i => (c0.value.getD u []).getD i [])
      (fun u i => scaledRow (ctx.Qm.getD i 0) (ratFloorNat (c0.scaleV / c1.scaleV))
        ((c1.value.getD u []).getD i []))
      ⟨rfl, rfl⟩ hQlen hVlen hVrows
      (by omega) (by omega)
      (fun u hu => by rw [hrowlen0 u (by omega)]; omega)
      (fun u hu => by rw [(ht1parts u (by omega)).1]; omega)
      (fun hd => ⟨by omega, fun u hu => by rw [hrowlen0 u (by omega)]; omega⟩)
      (fun hd => ⟨by omega, fun u hu => by rw [(ht1parts u (by omega)).1]; omega⟩)
      (fun u hu i hi => rfl)
      (fun u hu i hi => (ht1parts u (by omega)).2 i (by omega))
      (fun hd u hu i hi => rfl)
      (fun hd u hu i hi => (ht1parts u (by omega)).2 i (by omega))]
    unfold evalSpecDistinct
    rw [min_eq_left hlvl]
    simp only [if_pos hgt, if_neg hnlt, Bool.false_eq_true, if_false]

theorem evalSpecDistinct_value_length (ctx : Ctx) (op : Nat → Nat → Nat → Nat)
    (b : Bool) (c0 c1 outIn : Elem) :
    (evalSpecDistinct ctx op b c0 c1 outIn).value.length
      = max (elDegree c0) (elDegree c1) + 1 := by
  unfold evalSpecDistinct
  simp

theorem elDegree_def (el : Elem) : elDegree el = el.value.length - 1 := rfl

theorem elLevel_def (el : Elem) : elLevel el = (el.value.headD []).length - 1 := rfl

theorem evalSpecDistinct_degree (ctx : Ctx) (op : Nat → Nat → Nat → Nat)
    (b : Bool) (c0 c1 outIn : Elem) :
    elDegree (evalSpecDistinct ctx op b c0 c1 outIn)
      = max (elDegree c0) (elDegree c1) := by
  conv_lhs => rw [elDegree_def]
  rw [evalSpecDistinct_value_length]
  omega

theorem evalSpecDistinct_part_getD (ctx : Ctx) (op : Nat → Nat → Nat → Nat)
    (b : Bool) (c0 c1 outIn : Elem) (u : Nat)
    (hu : u < max (elDegree c0) (elDegree c1) + 1) :
    (evalSpecDistinct ctx op b c0 c1 outIn).value.getD u []
      = (List.range (min (min (elLevel c0) (elLevel c1)) (elLevel outIn) + 1)).map
        (fun i =>
          if u ≤ min (elDegree c0) (elDegree c1) then
            List.zipWith (op (ctx.Qm.getD i 0))
              (if c0.scaleV < c1.scaleV then
                scaledRow (ctx.Qm.getD i 0) (ratFloorNat (c1.scaleV / c0.scaleV))
                  ((c0.value.getD u []).getD i [])
              else (c0.value.getD u []).getD i [])
              (if c1.scaleV < c0.scaleV then
                scaledRow (ctx.Qm.getD i 0) (ratFloorNat (c0.scaleV / c1.scaleV))
                  ((c1.value.getD u []).getD i [])
              else (c1.value.getD u []).getD i [])
          else if elDegree c1 < elDegree c0 then
            (if c0.scaleV < c1.scaleV then
              scaledRow (ctx.Qm.getD i 0) (ratFloorNat (c1.scaleV / c0.scaleV))
                ((c0.value.getD u []).getD i [])
            else (c0.value.getD u []).getD i [])
          else if b then
            ((if c1.scaleV < c0.scaleV then
              scaledRow (ctx.Qm.getD i 0) (ratFloorNat (c0.scaleV / c1.scaleV))
                ((c1.value.getD u []).getD i [])
            else (c1.value.getD u []).getD i [])).map (negC (ctx.Qm.getD i 0))
          else
            (if c1.scaleV < c0.scaleV then
              scaledRow (ctx.Qm.getD i 0) (ratFloorNat (c0.scaleV / c1.scaleV))
                ((c1.value.getD u []).getD i [])
            else (c1.value.getD u []).getD i [])) := by
  unfold evalSpecDistinct
  simp only
  rw [rangeMap_getD _ _ _ _ hu]

theorem evalSpecDistinct_part_length (ctx : Ctx) (op : Nat → Nat → Nat → Nat)
    (b : Bool) (c0 c1 outIn : Elem) (u : Nat)
    (hu : u < max (elDegree c0) (elDegree c1) + 1) :
    ((evalSpecDistinct ctx op b c0 c1 outIn).value.getD u []).length
      = min (min (elLevel c0) (elLevel c1)) (elLevel outIn) + 1 := by
  rw [evalSpecDistinct_part_getD ctx op b c0 c1 outIn u hu]
  simp

theorem evalSpecDistinct_level (ctx : Ctx) (op : Nat → Nat → Nat → Nat)
    (b : Bool) (c0 c1 outIn : Elem) :
    elLevel (evalSpecDistinct ctx op b c0 c1 outIn)
      = min (min (elLevel c0) (elLevel c1)) (elLevel outIn) := by
  have h0 : (evalSpecDistinct ctx op b c0 c1 outIn).value.headD []
      = (evalSpecDistinct ctx op b c0 c1 outIn).value.getD 0 [] := by
    cases h : (evalSpecDistinct ctx op b c0 c1 outIn).value <;> simp [List.getD]
  conv_lhs => rw [elLevel_def]
  rw [h0, evalSpecDistinct_part_length ctx op b c0 c1 outIn 0 (by omega)]
  omega

theorem evalSpecDistinct_scale (ctx : Ctx) (op : Nat → Nat → Nat → Nat)
    (b : Bool) (c0 c1 outIn : Elem) :
    (evalSpecDistinct ctx op b c0 c1 outIn).scaleV = max c0.scaleV c1.scaleV := rfl

theorem evalSpecDistinct_isNTT (ctx : Ctx) (op : Nat → Nat → Nat → Nat)
    (b : Bool) (c0 c1 outIn : Elem) :
    (evalSpecDistinct ctx op b c0 c1 outIn).isNTT = outIn.isNTT := rfl

/-- When the second operand does not have the higher degree, the negation flag is
irrelevant. -/
theorem evalSpecDistinct_flag_irrel (ctx : Ctx) (op : Nat → Nat → Nat → Nat)
    (c0 c1 outIn : Elem) (hnd : ¬ elDegree c0 < elDegree c1) :
    evalSpecDistinct ctx op true c0 c1 outIn
      = evalSpecDistinct ctx op false c0 c1 outIn := by
  unfold evalSpecDistinct
  simp only
  congr 1
  apply List.map_congr_left
  intro u hu
  rw [List.mem_range] at hu
  apply List.map_congr_left
  intro i hi
  by_cases hc : u ≤ min (elDegree c0) (elDegree c1)
  · rw [if_pos hc, if_pos hc]
  · have h1 : elDegree c1 < elDegree c0 := by omega
    rw [if_neg hc, if_neg hc, if_pos h1, if_pos h1]

theorem addCkks_distinct_eq (ctx : Ctx) (c0 c1 outIn pool : Elem)
    (hodd : oddModuli ctx.Qm)
    (hwf0 : elemWF ctx c0) (hwf1 : elemWF ctx c1) (hwfO : elemWF ctx outIn)
    (hwfP : elemWF ctx pool)
    (hs0 : 0 < c0.scaleV) (hs1 : 0 < c1.scaleV)
    (hsum : 0 < elDegree c0 + elDegree c1)
    (hdeg : max (elDegree c0) (elDegree c1) ≤ elDegree outIn)
    (hlvl : min (elLevel c0) (elLevel c1) ≤ elLevel outIn)
    (hplvl : min (elLevel c0) (elLevel c1) ≤ elLevel pool)
    (hpdeg : max (elDegree c0) (elDegree c1) ≤ elDegree pool) :
    addCkks ctx .distinct c0 c1 outIn pool
      = .ok (evalSpecDistinct ctx addC false c0 c1 outIn) := by
  unfold addCkks checkBinary
  rw [if_neg (by omega), if_neg (by omega)]
  simp only [bind, Except.bind]
  rw [evaluateInPlace_distinct_eq ctx addC c0 c1 outIn pool hodd hwf0 hwf1 hwfO hwfP
    hs0 hs1 hdeg hlvl hplvl hpdeg]
  rfl

theorem negParts_spec_eq (ctx : Ctx) (c0 c1 outIn : Elem)
    (hdd : elDegree c0 < elDegree c1)
    (hQ : min (min (elLevel c0) (elLevel c1)) (elLevel outIn) + 1 ≤ ctx.Qm.length) :
    negParts ctx (min (min (elLevel c0) (elLevel c1)) (elLevel outIn))
      (elDegree c0 + 1) (elDegree c1) (evalSpecDistinct ctx subC false c0 c1 outIn)
      = some (evalSpecDistinct ctx subC true c0 c1 outIn) := by
  have hmax : max (elDegree c0) (elDegree c1) = elDegree c1 := by omega
  have hmin : min (elDegree c0) (elDegree c1) = elDegree c0 := by omega
  have hlen := evalSpecDistinct_value_length ctx subC false c0 c1 outIn
  have hplen : ∀ u, u < elDegree c1 + 1 →
      ((evalSpecDistinct ctx subC false c0 c1 outIn).value.getD u []).length
        = min (min (elLevel c0) (elLevel c1)) (elLevel outIn) + 1 := by
    intro u hu
    exact evalSpecDistinct_part_length ctx subC false c0 c1 outIn u (by omega)
  unfold negParts
  rw [if_pos ⟨by omega, hQ, partsLvlOk_true _ _ _ (fun u hu => by rw [hplen u (by omega)])⟩]
  refine congrArg some ?_
  ext1
  · simp only
    apply list_ext_getD _ _ []
    · rw [mapWithIdx_length, hlen, evalSpecDistinct_value_length]
    · intro u hu
      rw [mapWithIdx_length, hlen] at hu
      rw [mapWithIdx_getD _ _ 0 _ u (by rw [hlen]; omega)]
      simp only [Nat.zero_add]
      rw [evalSpecDistinct_part_getD ctx subC true c0 c1 outIn u (by omega)]
      by_cases hc : elDegree c0 + 1 ≤ u ∧ u ≤ elDegree c1
      · rw [if_pos hc]
        apply list_ext_getD _ _ []
        · rw [onFirst1_length, hplen u (by omega)]
          simp
        · intro i hi
          rw [onFirst1_length, hplen u (by omega)] at hi
          rw [onFirst1_getD_lt (fun q r => List.map (negC q) r) ctx.Qm
            (min (min (elLevel c0) (elLevel c1)) (elLevel outIn) + 1)
            ((evalSpecDistinct ctx subC false c0 c1 outIn).value.getD u [])
            ((evalSpecDistinct ctx subC false c0 c1 outIn).value.getD u []) i
            (by omega) (by omega)
            (by rw [hplen u (by omega)]; omega) (by rw [hplen u (by omega)]; omega)]
          rw [evalSpecDistinct_part_getD ctx subC false c0 c1 outIn u (by omega)]
          simp only [rangeMap_getD _ _ _ _ hi]
          have h1 : ¬ u ≤ min (elDegree c0) (elDegree c1) := by omega
          have h2 : ¬ elDegree c1 < elDegree c0 := by omega
          simp [h1, h2]
      · rw [if_neg hc]
        have hu0 : u ≤ elDegree c0 := by omega
        rw [evalSpecDistinct_part_getD ctx subC false c0 c1 outIn u (by omega)]
        apply List.map_congr_left
        intro i hi
        rw [List.mem_range] at hi
        have h1 : u ≤ min (elDegree c0) (elDegree c1) := by omega
        simp [h1]
  · rfl
  · rfl

theorem subCkks_distinct_eq (ctx : Ctx) (c0 c1 outIn pool : Elem)
    (hodd : oddModuli ctx.Qm)
    (hwf0 : elemWF ctx c0) (hwf1 : elemWF ctx c1) (hwfO : elemWF ctx outIn)
    (hwfP : elemWF ctx pool)
    (hs0 : 0 < c0.scaleV) (hs1 : 0 < c1.scaleV)
    (hsum : 0 < elDegree c0 + elDegree c1)
    (hdeg : max (elDegree c0) (elDegree c1) ≤ elDegree outIn)
    (hlvl : min (elLevel c0) (elLevel c1) ≤ elLevel outIn)
    (hplvl : min (elLevel c0) (elLevel c1) ≤ elLevel pool)
    (hpdeg : max (elDegree c0) (elDegree c1) ≤ elDegree pool) :
    subCkks ctx .distinct c0 c1 outIn pool
      = .ok (evalSpecDistinct ctx subC true c0 c1 outIn) := by
  have hQ : min (min (elLevel c0) (elLevel c1)) (elLevel outIn) + 1 ≤ ctx.Qm.length := by
    obtain ⟨-, -, hq0⟩ := hwf0
    have h1 : min (min (elLevel c0) (elLevel c1)) (elLevel outIn)
        ≤ min (elLevel c0) (elLevel c1) := Nat.min_le_left _ _
    have h2 : min (elLevel c0) (elLevel c1) ≤ elLevel c0 := Nat.min_le_left _ _
    omega
  unfold subCkks checkBinary
  rw [if_neg (by omega), if_neg (by omega)]
  simp only [bind, Except.bind]
  rw [evaluateInPlace_distinct_eq ctx subC c0 c1 outIn pool hodd hwf0 hwf1 hwfO hwfP
    hs0 hs1 hdeg hlvl hplvl hpdeg]
  simp only [liftO]
  have e0 : (EvalAlias.distinct = EvalAlias.outIsC0) = False := by simp
  have e1 : (EvalAlias.distinct = EvalAlias.outIsC1) = False := by simp
  simp only [e0, e1, if_false]
  rw [evalSpecDistinct_level ctx subC false c0 c1 outIn]
  rw [min_eq_right (Nat.min_le_left (min (elLevel c0) (elLevel c1)) (elLevel outIn))]
  by_cases hdd : elDegree c0 < elDegree c1
  · rw [if_pos hdd, negParts_spec_eq ctx c0 c1 outIn hdd hQ]
  · rw [if_neg hdd, evalSpecDistinct_flag_irrel ctx subC c0 c1 outIn hdd]
    rfl

/-! ## C7: Add/Sub -/

/-- C7 counterexample: `Sub` with a degree-1 first operand and a degree-0 second
operand copies the excess part of the first operand unchanged (residue 3), while
the claim as stated demands its negation (residue 2). -/
theorem C7_sub_excess_counterexample :
    subCkks ⟨1, [5], [], 1, 1⟩ .distinct
        ⟨[[[2]], [[3]]], 1, true⟩ ⟨[[[1]]], 1, true⟩ ⟨[[[0]], [[0]]], 1, true⟩
        ⟨[[[9]], [[9]]], 1, true⟩
      = .ok ⟨[[[1]], [[3]]], 1, true⟩ ∧
    List.map (negC 5) [3] = [2] ∧ ([3] : Row) ≠ [2] := by
  refine ⟨?_, rfl, by decide⟩
  rfl

/-- C7 (amended): for `Add` and `Sub` with a dedicated receiver, the result is
exactly the claim-side description: level `min(operand levels, receiver level)`,
degree `max(operand degrees)`, scale `max(scale0, scale1)` after the lower-scale
operand is multiplied pointwise by the integer ratio of the scales rounded down,
shared parts combined pointwise, and the excess-degree parts of the
(scale-aligned) higher-degree operand copied — negated for `Sub` exactly when the
second operand has the higher degree (when the first operand has the higher
degree its excess parts are copied unchanged, also for `Sub`). -/
theorem C7_add_sub_amended (ctx : Ctx) (c0 c1 outIn pool : Elem)
    (hodd : oddModuli ctx.Qm)
    (hwf0 : elemWF ctx c0) (hwf1 : elemWF ctx c1) (hwfO : elemWF ctx outIn)
    (hwfP : elemWF ctx pool)
    (hs0 : 0 < c0.scaleV) (hs1 : 0 < c1.scaleV)
    (hsum : 0 < elDegree c0 + elDegree c1)
    (hdeg : max (elDegree c0) (elDegree c1) ≤ elDegree outIn)
    (hlvl : min (elLevel c0) (elLevel c1) ≤ elLevel outIn)
    (hplvl : min (elLevel c0) (elLevel c1) ≤ elLevel pool)
    (hpdeg : max (elDegree c0) (elDegree c1) ≤ elDegree pool) :
    addCkks ctx .distinct c0 c1 outIn pool
        = .ok (evalSpecDistinct ctx addC false c0 c1 outIn) ∧
    subCkks ctx .distinct c0 c1 outIn pool
        = .ok (evalSpecDistinct ctx subC true c0 c1 outIn) ∧
    (∀ (op : Nat → Nat → Nat → Nat) (b : Bool),
      elLevel (evalSpecDistinct ctx op b c0 c1 outIn)
          = min (min (elLevel c0) (elLevel c1)) (elLevel outIn) ∧
      elDegree (evalSpecDistinct ctx op b c0 c1 outIn)
          = max (elDegree c0) (elDegree c1) ∧
      (evalSpecDistinct ctx op b c0 c1 outIn).scaleV = max c0.scaleV c1.scaleV) :=
  ⟨addCkks_distinct_eq ctx c0 c1 outIn pool hodd hwf0 hwf1 hwfO hwfP hs0 hs1 hsum
      hdeg hlvl hplvl hpdeg,
    subCkks_distinct_eq ctx c0 c1 outIn pool hodd hwf0 hwf1 hwfO hwfP hs0 hs1 hsum
      hdeg hlvl hplvl hpdeg,
    fun op b => ⟨evalSpecDistinct_level ctx op b c0 c1 outIn,
      evalSpecDistinct_degree ctx op b c0 c1 outIn,
      evalSpecDistinct_scale ctx op b c0 c1 outIn⟩⟩

/-- Witness for C7 at a one-modulus instance with unequal scales 4 and 2. -/
theorem C7_add_sub_amended_witness :
    addCkks ⟨1, [5], [], 1, 1⟩ .distinct ⟨[[[2]], [[3]]], 4, true⟩ ⟨[[[1]]], 2, true⟩
        ⟨[[[7]], [[7]]], 1, false⟩ ⟨[[[9]], [[9]]], 3, true⟩
        = .ok (evalSpecDistinct ⟨1, [5], [], 1, 1⟩ addC false ⟨[[[2]], [[3]]], 4, true⟩
          ⟨[[[1]]], 2, true⟩ ⟨[[[7]], [[7]]], 1, false⟩) ∧
    subCkks ⟨1, [5], [], 1, 1⟩ .distinct ⟨[[[2]], [[3]]], 4, true⟩ ⟨[[[1]]], 2, true⟩
        ⟨[[[7]], [[7]]], 1, false⟩ ⟨[[[9]], [[9]]], 3, true⟩
        = .ok (evalSpecDistinct ⟨1, [5], [], 1, 1⟩ subC true ⟨[[[2]], [[3]]], 4, true⟩
          ⟨[[[1]]], 2, true⟩ ⟨[[[7]], [[7]]], 1, false⟩) ∧
    (∀ (op : Nat → Nat → Nat → Nat) (b : Bool),
      elLevel (evalSpecDistinct ⟨1, [5], [], 1, 1⟩ op b ⟨[[[2]], [[3]]], 4, true⟩
          ⟨[[[1]]], 2, true⟩ ⟨[[[7]], [[7]]], 1, false⟩)
          = min (min (elLevel ⟨[[[2]], [[3]]], 4, true⟩) (elLevel ⟨[[[1]]], 2, true⟩))
            (elLevel ⟨[[[7]], [[7]]], 1, false⟩) ∧
      elDegree (evalSpecDistinct ⟨1, [5], [], 1, 1⟩ op b ⟨[[[2]], [[3]]], 4, true⟩
          ⟨[[[1]]], 2, true⟩ ⟨[[[7]], [[7]]], 1, false⟩)
          = max (elDegree ⟨[[[2]], [[3]]], 4, true⟩) (elDegree ⟨[[[1]]], 2, true⟩) ∧
      (evalSpecDistinct ⟨1, [5], [], 1, 1⟩ op b ⟨[[[2]], [[3]]], 4, true⟩
          ⟨[[[1]]], 2, true⟩ ⟨[[[7]], [[7]]], 1, false⟩).scaleV
          = max (⟨[[[2]], [[3]]], 4, true⟩ : Elem).scaleV
            (⟨[[[1]]], 2, true⟩ : Elem).scaleV) :=
  C7_add_sub_amended ⟨1, [5], [], 1, 1⟩ ⟨[[[2]], [[3]]], 4, true⟩ ⟨[[[1]]], 2, true⟩
    ⟨[[[7]], [[7]]], 1, false⟩ ⟨[[[9]], [[9]]], 3, true⟩
    (by unfold oddModuli; decide) (by unfold elemWF; decide) (by unfold elemWF; decide)
    (by unfold elemWF; decide) (by unfold elemWF; decide)
    (by decide) (by decide) (by decide) (by decide) (by decide) (by decide) (by decide)

/-! ## C5/C6: rescaling -/

theorem headD_map_ne {α β : Type} (f : α → β) (l : List α) (d : α) (d2 : β)
    (h : l ≠ []) : (l.map f).headD d2 = f (l.headD d) := by
  cases l with
  | nil => exact absurd rfl h
  | cons a l => simp

/-- One division step drops exactly one level on a well-formed element. -/
theorem rescaleStep_level (f : RPoly → RPoly)
    (hf : ∀ p, (f p).length = p.length - 1) (c : Elem) (s : ℚ) (b : Bool)
    (hne : c.value ≠ []) (hrows : ∀ p ∈ c.value, p.length = elLevel c + 1) :
    elLevel (Elem.mk (c.value.map f) s b) = elLevel c - 1 := by
  rw [elLevel_def]
  simp only
  rw [headD_map_ne f c.value [] [] hne, hf]
  have hh : c.value.headD [] ∈ c.value := by
    cases hv : c.value with
    | nil => exact absurd hv hne
    | cons a l => simp [hv]
  rw [hrows _ hh]
  omega

/-- The rescale loop stops only when the scale is below the threshold bound or
the level has reached zero, given enough fuel (the starting level) and a step
that drops one row. -/
theorem rescaleLoop_stops (Qm : List Nat) (thr : ℚ) (f : RPoly → RPoly)
    (hf : ∀ p, (f p).length = p.length - 1) :
    ∀ (fuel : Nat) (c : Elem), c.value ≠ [] →
      (∀ p ∈ c.value, p.length = elLevel c + 1) → elLevel c ≤ fuel →
      ((rescaleLoop Qm thr f fuel c).scaleV
          < thr * (Qm.getD (elLevel (rescaleLoop Qm thr f fuel c)) 0 : ℚ) / 2
        ∨ elLevel (rescaleLoop Qm thr f fuel c) = 0) := by
  intro fuel
  induction fuel with
  | zero =>
    intro c hne hrows hle
    right
    simpa [rescaleLoop] using hle
  | succ fuel ih =>
    intro c hne hrows hle
    unfold rescaleLoop
    by_cases hcond : thr * (Qm.getD (elLevel c) 0 : ℚ) / 2 ≤ c.scaleV ∧ elLevel c ≠ 0
    · rw [if_pos hcond]
      have hlvlstep := rescaleStep_level f hf c
        (c.scaleV / (Qm.getD (elLevel c) 0 : ℚ)) c.isNTT hne hrows
      apply ih
      · simp only
        intro hmap
        exact hne (List.map_eq_nil_iff.mp hmap)
      · intro p hp
        simp only at hp
        rw [List.mem_map] at hp
        obtain ⟨q, hq, rfl⟩ := hp
        rw [hf, hrows q hq, hlvlstep]
        omega
      · rw [hlvlstep]
        omega
    · rw [if_neg hcond]
      rcases not_and_or.mp hcond with h | h
      · left
        exact lt_of_not_le h
      · right
        exact not_not.mp h

/-- C6: for a level-one-or-higher NTT-domain input with a matching receiver,
`Rescale` copies the input unchanged when the scale is already below
`threshold * lastModulus / 2`, and otherwise runs the division loop: while the
current scale is at least the bound and the level is nonzero, the scale is
divided by the last active modulus and each part divided by it (dropping one
level per step); the loop leaves a state whose scale is below the bound for its
level or whose level is zero. -/
theorem C6_rescale_loop (Qm : List Nat) (thr : ℚ) (f : RPoly → RPoly)
    (ct0 c1 : Elem)
    (hf : ∀ p, (f p).length = p.length - 1)
    (hne : ct0.value ≠ []) (hrows : ∀ p ∈ ct0.value, p.length = elLevel ct0 + 1)
    (hlvl : 1 ≤ elLevel ct0) (hntt : ct0.isNTT = true)
    (hmatch : elLevel ct0 = elLevel c1) :
    (ct0.scaleV < thr * (Qm.getD (elLevel c1) 0 : ℚ) / 2 →
        rescale Qm thr f ct0 c1 = .ok ct0) ∧
    (thr * (Qm.getD (elLevel c1) 0 : ℚ) / 2 ≤ ct0.scaleV →
        rescale Qm thr f ct0 c1 = .ok (rescaleLoop Qm thr f (elLevel ct0) ct0)) ∧
    (∀ (c : Elem) (fuel : Nat),
      thr * (Qm.getD (elLevel c) 0 : ℚ) / 2 ≤ c.scaleV → elLevel c ≠ 0 →
      rescaleLoop Qm thr f (fuel + 1) c
        = rescaleLoop Qm thr f fuel
            (Elem.mk (c.value.map f) (c.scaleV / (Qm.getD (elLevel c) 0 : ℚ)) c.isNTT)) ∧
    (∀ (c : Elem) (fuel : Nat),
      ¬ (thr * (Qm.getD (elLevel c) 0 : ℚ) / 2 ≤ c.scaleV ∧ elLevel c ≠ 0) →
      rescaleLoop Qm thr f fuel c = c) ∧
    (∀ (c : Elem) (s : ℚ) (b : Bool), c.value ≠ [] →
      (∀ p ∈ c.value, p.length = elLevel c + 1) →
      elLevel (Elem.mk (c.value.map f) s b) = elLevel c - 1) ∧
    ((rescaleLoop Qm thr f (elLevel ct0) ct0).scaleV
        < thr * (Qm.getD (elLevel (rescaleLoop Qm thr f (elLevel ct0) ct0)) 0 : ℚ) / 2
      ∨ elLevel (rescaleLoop Qm thr f (elLevel ct0) ct0) = 0) := by
  refine ⟨?_, ?_, ?_, ?_, ?_, ?_⟩
  · intro hbelow
    unfold rescale
    rw [if_neg (by omega), if_neg (by omega), if_neg (not_le.mpr hbelow)]
  · intro habove
    unfold rescale
    rw [if_neg (by omega), if_neg (by omega), if_pos habove,
      if_neg (by rw [hntt]; intro h; exact Bool.noConfusion h)]
  · intro c fuel hs hl
    conv_lhs => rw [rescaleLoop]
    rw [if_pos ⟨hs, hl⟩]
  · intro c fuel hcond
    cases fuel with
    | zero => rfl
    | succ fuel =>
      conv_lhs => rw [rescaleLoop]
      rw [if_neg hcond]
  · intro c s b hnec hrowsc
    exact rescaleStep_level f hf c s b hnec hrowsc
  · exact rescaleLoop_stops Qm thr f hf (elLevel ct0) ct0 hne hrows (le_refl _)

/-- Witness for C6: two-level chain with moduli 4, threshold 1, starting scale 5. -/
theorem C6_rescale_loop_witness :
    ((⟨[[[1], [2]]], 5, true⟩ : Elem).scaleV
        < 1 * (([4, 4].getD (elLevel (⟨[[[0], [0]]], 1, true⟩ : Elem)) 0 : Nat) : ℚ) / 2 →
      rescale [4, 4] 1 List.dropLast ⟨[[[1], [2]]], 5, true⟩ ⟨[[[0], [0]]], 1, true⟩
        = .ok ⟨[[[1], [2]]], 5, true⟩) ∧
    (1 * (([4, 4].getD (elLevel (⟨[[[0], [0]]], 1, true⟩ : Elem)) 0 : Nat) : ℚ) / 2
        ≤ (⟨[[[1], [2]]], 5, true⟩ : Elem).scaleV →
      rescale [4, 4] 1 List.dropLast ⟨[[[1], [2]]], 5, true⟩ ⟨[[[0], [0]]], 1, true⟩
        = .ok (rescaleLoop [4, 4] 1 List.dropLast
            (elLevel (⟨[[[1], [2]]], 5, true⟩ : Elem)) ⟨[[[1], [2]]], 5, true⟩)) ∧
    (∀ (c : Elem) (fuel : Nat),
      1 * (([4, 4].getD (elLevel c) 0 : Nat) : ℚ) / 2 ≤ c.scaleV → elLevel c ≠ 0 →
      rescaleLoop [4, 4] 1 List.dropLast (fuel + 1) c
        = rescaleLoop [4, 4] 1 List.dropLast fuel
            (Elem.mk (c.value.map List.dropLast)
              (c.scaleV / (([4, 4].getD (elLevel c) 0 : Nat) : ℚ)) c.isNTT)) ∧
    (∀ (c : Elem) (fuel : Nat),
      ¬ (1 * (([4, 4].getD (elLevel c) 0 : Nat) : ℚ) / 2 ≤ c.scaleV ∧ elLevel c ≠ 0) →
      rescaleLoop [4, 4] 1 List.dropLast fuel c = c) ∧
    (∀ (c : Elem) (s : ℚ) (b : Bool), c.value ≠ [] →
      (∀ p ∈ c.value, p.length = elLevel c + 1) →
      elLevel (Elem.mk (c.value.map List.dropLast) s b) = elLevel c - 1) ∧
    ((rescaleLoop [4, 4] 1 List.dropLast (elLevel (⟨[[[1], [2]]], 5, true⟩ : Elem))
        ⟨[[[1], [2]]], 5, true⟩).scaleV
        < 1 * (([4, 4].getD (elLevel (rescaleLoop [4, 4] 1 List.dropLast
            (elLevel (⟨[[[1], [2]]], 5, true⟩ : Elem)) ⟨[[[1], [2]]], 5, true⟩)) 0 : Nat) : ℚ) / 2
      ∨ elLevel (rescaleLoop [4, 4] 1 List.dropLast
          (elLevel (⟨[[[1], [2]]], 5, true⟩ : Elem)) ⟨[[[1], [2]]], 5, true⟩) = 0) :=
  C6_rescale_loop [4, 4] 1 List.dropLast ⟨[[[1], [2]]], 5, true⟩ ⟨[[[0], [0]]], 1, true⟩
    (fun p => by simp) (by decide) (by decide) (by decide) (by decide) (by decide)

/-- C5: `Rescale` returns a recoverable error, leaving the receiver unchanged,
exactly when the input level is 0; when the rescale condition holds (level
nonzero, matching receiver, scale at least `threshold * lastModulus / 2`) but
the input is not in the NTT domain it panics; `RescaleMany` returns a
recoverable error, leaving the receiver unchanged, exactly when the input level
is below the requested number `n` of rescales, and otherwise (matching receiver,
NTT input) performs exactly `n` division steps with no per-step threshold
check, dividing the scale by the product of the `n` last active moduli. -/
theorem C5_rescale_errors (Qm : List Nat) (thr : ℚ) (f : RPoly → RPoly)
    (ct0 c1 : Elem) (n : Nat) :
    ((∃ c, rescale Qm thr f ct0 c1 = .err c) ↔ elLevel ct0 = 0) ∧
    (∀ c, rescale Qm thr f ct0 c1 = .err c → c = c1) ∧
    (elLevel ct0 ≠ 0 → elLevel ct0 = elLevel c1 →
      thr * (Qm.getD (elLevel c1) 0 : ℚ) / 2 ≤ ct0.scaleV → ct0.isNTT = false →
      rescale Qm thr f ct0 c1 = .fatal "cannot rescale, input not in NTT") ∧
    ((∃ c, rescaleMany Qm f ct0 c1 n = .err c) ↔ elLevel ct0 < n) ∧
    (∀ c, rescaleMany Qm f ct0 c1 n = .err c → c = c1) ∧
    (n ≤ elLevel ct0 → elLevel ct0 = elLevel c1 → ct0.isNTT = true →
      rescaleMany Qm f ct0 c1 n
        = .ok (Elem.mk (ct0.value.map (fun p => f^[n] p))
            (ct0.scaleV
              / ((List.range n).map
                  (fun i => ((Qm.getD (elLevel ct0 - i) 0 : Nat) : ℚ))).prod)
            ct0.isNTT)) := by
  refine ⟨⟨?_, ?_⟩, ?_, ?_, ⟨?_, ?_⟩, ?_, ?_⟩
  · rintro ⟨c, hc⟩
    by_contra h0
    unfold rescale at hc
    rw [if_neg h0] at hc
    by_cases hm : elLevel ct0 ≠ elLevel c1
    · rw [if_pos hm] at hc
      exact RescaleRes.noConfusion hc
    · rw [if_neg hm] at hc
      by_cases hs : thr * (Qm.getD (elLevel c1) 0 : ℚ) / 2 ≤ ct0.scaleV
      · rw [if_pos hs] at hc
        by_cases hn : ct0.isNTT = false
        · rw [if_pos hn] at hc
          exact RescaleRes.noConfusion hc
        · rw [if_neg hn] at hc
          exact RescaleRes.noConfusion hc
      · rw [if_neg hs] at hc
        exact RescaleRes.noConfusion hc
  · intro h0
    exact ⟨c1, by unfold rescale; rw [if_pos h0]⟩
  · intro c hc
    by_cases h0 : elLevel ct0 = 0
    · unfold rescale at hc
      rw [if_pos h0] at hc
      injection hc with h
      exact h.symm
    · exfalso
      unfold rescale at hc
      rw [if_neg h0] at hc
      by_cases hm : elLevel ct0 ≠ elLevel c1
      · rw [if_pos hm] at hc
        exact RescaleRes.noConfusion hc
      · rw [if_neg hm] at hc
        by_cases hs : thr * (Qm.getD (elLevel c1) 0 : ℚ) / 2 ≤ ct0.scaleV
        · rw [if_pos hs] at hc
          by_cases hn : ct0.isNTT = false
          · rw [if_pos hn] at hc
            exact RescaleRes.noConfusion hc
          · rw [if_neg hn] at hc
            exact RescaleRes.noConfusion hc
        · rw [if_neg hs] at hc
          exact RescaleRes.noConfusion hc
  · intro h0 hm hs hn
    unfold rescale
    rw [if_neg h0, if_neg (by omega), if_pos hs, if_pos hn]
  · rintro ⟨c, hc⟩
    by_contra hlt
    unfold rescaleMany at hc
    rw [if_neg hlt] at hc
    by_cases hm : elLevel ct0 ≠ elLevel c1
    · rw [if_pos hm] at hc
      exact RescaleRes.noConfusion hc
    · rw [if_neg hm] at hc
      by_cases hn : ct0.isNTT = false
      · rw [if_pos hn] at hc
        exact RescaleRes.noConfusion hc
      · rw [if_neg hn] at hc
        exact RescaleRes.noConfusion hc
  · intro hlt
    exact ⟨c1, by unfold rescaleMany; rw [if_pos hlt]⟩
  · intro c hc
    by_cases hlt : elLevel ct0 < n
    · unfold rescaleMany at hc
      rw [if_pos hlt] at hc
      injection hc with h
      exact h.symm
    · exfalso
      unfold rescaleMany at hc
      rw [if_neg hlt] at hc
      by_cases hm : elLevel ct0 ≠ elLevel c1
      · rw [if_pos hm] at hc
        exact RescaleRes.noConfusion hc
      · rw [if_neg hm] at hc
        by_cases hn : ct0.isNTT = false
        · rw [if_pos hn] at hc
          exact RescaleRes.noConfusion hc
        · rw [if_neg hn] at hc
          exact RescaleRes.noConfusion hc
  · intro hle hm hn
    unfold rescaleMany
    rw [if_neg (by omega), if_neg (by omega),
      if_neg (by rw [hn]; intro h; exact Bool.noConfusion h)]

/-! ## MulRelin helper lemmas -/

theorem dropLevelElem_meta (el : Elem) (n : Nat) (e : Elem)
    (h : dropLevelElem el n = some e) :
    e.scaleV = el.scaleV ∧ e.value.length = el.value.length ∧ e.isNTT = el.isNTT := by
  unfold dropLevelElem at h
  split at h
  · injection h with h
    subst h
    exact ⟨rfl, rfl, rfl⟩
  · split at h
    · injection h with h
      subst h
      exact ⟨rfl, by simp, rfl⟩
    · exact Option.noConfusion h

theorem dropLevelElem_le (el : Elem) (n : Nat) (h : n ≤ elLevel el) :
    ∃ e, dropLevelElem el n = some e := by
  unfold dropLevelElem
  by_cases h0 : elLevel el = 0
  · exact ⟨el, by rw [if_pos h0]⟩
  · exact ⟨_, by rw [if_neg h0, if_pos h]⟩

theorem dropStep_meta (outIn out2 : Elem) (lvl : Nat)
    (heq : (if lvl < elLevel outIn then dropLevelElem outIn (elLevel outIn - lvl)
            else some outIn) = some out2) :
    out2.scaleV = outIn.scaleV ∧ out2.value.length = outIn.value.length
      ∧ out2.isNTT = outIn.isNTT := by
  by_cases hlt : lvl < elLevel outIn
  · rw [if_pos hlt] at heq
    exact dropLevelElem_meta _ _ _ heq
  · rw [if_neg hlt] at heq
    injection heq with heq
    subst heq
    exact ⟨rfl, rfl, rfl⟩

theorem resizeElem_scaleV (ctx : Ctx) (el : Elem) (d : Nat) :
    (resizeElem ctx el d).scaleV = el.scaleV := by
  unfold resizeElem
  split <;> rfl

theorem resizeElem_isNTT (ctx : Ctx) (el : Elem) (d : Nat) :
    (resizeElem ctx el d).isNTT = el.isNTT := by
  unfold resizeElem
  split <;> rfl

theorem resizeElem_value_length (ctx : Ctx) (el : Elem) (d : Nat) :
    (resizeElem ctx el d).value.length = d + 1 := by
  unfold resizeElem
  split
  · rename_i hlt
    simp only [List.length_take]
    omega
  · rename_i hlt
    simp only [List.length_append, List.length_replicate]
    omega

theorem switchKeysInPlace_meta (ctx : Ctx) (ext : ExtOps) (pools : EvalPools)
    (cx : RPoly) (key : SwitchingKey) (ctOut e : Elem)
    (h : switchKeysInPlace ctx ext pools cx key ctOut = some e) :
    e.scaleV = ctOut.scaleV ∧ e.value.length = ctOut.value.length
      ∧ e.isNTT = ctOut.isNTT := by
  unfold switchKeysInPlace at h
  split at h
  · simp only [bind, Option.bind_eq_some] at h
    obtain ⟨stF, hstF, h⟩ := h
    obtain ⟨v0, hv0, h⟩ := h
    obtain ⟨v1, hv1, h⟩ := h
    injection h with h
    subst h
    exact ⟨rfl, by simp, rfl⟩
  · exact Option.noConfusion h

theorem mulRelinKeyTail_meta (ctx : Ctx) (ext : ExtOps) (pools : EvalPools)
    (lvl : Nat) (key : SwitchingKey) (rs : RPoly × RPoly × RPoly) (d0 d1 : RPoly)
    (out3 res : Elem)
    (h : mulRelinKeyTail ctx ext pools lvl key rs d0 d1 out3 = .ok res) :
    res.scaleV = out3.scaleV ∧ res.value.length = out3.value.length
      ∧ res.isNTT = out3.isNTT := by
  unfold mulRelinKeyTail at h
  split at h
  · split at h
    · rename_i e heq
      injection h with h
      subst h
      obtain ⟨h1, h2, h3⟩ := switchKeysInPlace_meta _ _ _ _ _ _ _ heq
      refine ⟨h1, ?_, h3⟩
      rw [h2]
      simp
    · exact Except.noConfusion h
  · exact Except.noConfusion h

theorem mulRelinCtCt_meta (ctx : Ctx) (ext : ExtOps) (pools : EvalPools)
    (al : EvalAlias) (sq : Bool) (evakey : Option SwitchingKey) (lvl : Nat)
    (el0 el1 out3 res : Elem)
    (h : mulRelinCtCt ctx ext pools al sq evakey lvl el0 el1 out3 = .ok res) :
    res.scaleV = out3.scaleV ∧ res.isNTT = out3.isNTT
      ∧ (evakey.isSome = true → res.value.length = out3.value.length)
      ∧ (evakey = none → res.value.length = 3) := by
  unfold mulRelinCtCt at h
  split at h
  · split at h
    · split at h
      · obtain ⟨h1, h2, h3⟩ := mulRelinKeyTail_meta _ _ _ _ _ _ _ _ _ _ h
        exact ⟨h1, h3, fun _ => h2, fun hn => Option.noConfusion hn⟩
      · exact Except.noConfusion h
    · exact Except.noConfusion h
  · simp only [] at h
    split at h
    · split at h
      · injection h with h
        subst h
        refine ⟨resizeElem_scaleV _ _ _, resizeElem_isNTT _ _ _, ?_, ?_⟩
        · intro hh
          exact absurd hh (by simp)
        · intro _
          simp [resizeElem_value_length]
      · exact Except.noConfusion h
    · exact Except.noConfusion h
  · split at h
    · split at h
      · obtain ⟨h1, h2, h3⟩ := mulRelinKeyTail_meta _ _ _ _ _ _ _ _ _ _ h
        exact ⟨h1, h3, fun _ => h2, fun hn => Option.noConfusion hn⟩
      · exact Except.noConfusion h
    · exact Except.noConfusion h
  · simp only [] at h
    split at h
    · split at h
      · split at h
        · injection h with h
          subst h
          refine ⟨resizeElem_scaleV _ _ _, resizeElem_isNTT _ _ _, ?_, ?_⟩
          · intro hh
            exact absurd hh (by simp)
          · intro _
            simp [resizeElem_value_length]
        · exact Except.noConfusion h
      · exact Except.noConfusion h
    · exact Except.noConfusion h

set_option maxHeartbeats 1000000 in
theorem mulRelin_ok_meta (ctx : Ctx) (ext : ExtOps) (pools : EvalPools)
    (al : EvalAlias) (sq : Bool) (evakey : Option SwitchingKey)
    (c0 c1 outIn res : Elem)
    (h : mulRelin ctx ext pools al sq evakey c0 c1 outIn = .ok res) :
    res.scaleV = c0.scaleV * c1.scaleV
      ∧ (evakey.isSome = true → res.value.length = outIn.value.length) := by
  unfold mulRelin at h
  split at h
  · exact Except.noConfusion h
  · split at h
    · exact Except.noConfusion h
    · simp only [] at h
      split at h
      · exact Except.noConfusion h
      · rename_i out2 heq
        have hd := dropStep_meta _ _ _ heq
        by_cases hC1 : 1 < elDegree (if al = EvalAlias.outIsC0 then out2 else c0)
            ∨ 1 < elDegree (if sq = true then (if al = EvalAlias.outIsC0 then out2 else c0)
                else if al = EvalAlias.outIsC1 then out2 else c1)
        · rw [if_pos hC1] at h
          exact Except.noConfusion h
        · rw [if_neg hC1] at h
          by_cases hC2 : (if al = EvalAlias.outIsC0 then out2 else c0).isNTT = false
          · rw [if_pos hC2] at h
            exact Except.noConfusion h
          · rw [if_neg hC2] at h
            by_cases hC3 : (if sq = true then (if al = EvalAlias.outIsC0 then out2 else c0)
                else if al = EvalAlias.outIsC1 then out2 else c1).isNTT = false
            · rw [if_pos hC3] at h
              exact Except.noConfusion h
            · rw [if_neg hC3] at h
              by_cases hC4 : elDegree (if al = EvalAlias.outIsC0 then out2 else c0)
                  + elDegree (if sq = true then (if al = EvalAlias.outIsC0 then out2 else c0)
                      else if al = EvalAlias.outIsC1 then out2 else c1) = 2
              · rw [if_pos hC4] at h
                obtain ⟨h1, h3, h4, _⟩ := mulRelinCtCt_meta _ _ _ _ _ _ _ _ _ _ _ h
                refine ⟨h1, fun hs => ?_⟩
                rw [h4 hs]
                simpa using hd.2.1
              · rw [if_neg hC4] at h
                repeat'
                  first
                  | exact Except.noConfusion h
                  | split at h
                all_goals
                  injection h with h
                  subst h
                  refine ⟨rfl, fun _ => ?_⟩
                  simpa using hd.2.1

set_option maxHeartbeats 1000000 in
theorem mulRelin_nokey_deg2 (ctx : Ctx) (ext : ExtOps) (pools : EvalPools)
    (al : EvalAlias) (sq : Bool) (c0 c1 outIn res : Elem)
    (halias0 : al = .outIsC0 → c0 = outIn) (halias1 : al = .outIsC1 → c1 = outIn)
    (hd0 : elDegree c0 = 1) (hd1 : elDegree c1 = 1)
    (h : mulRelin ctx ext pools al sq none c0 c1 outIn = .ok res) :
    elDegree res = 2 := by
  unfold mulRelin at h
  split at h
  · exact Except.noConfusion h
  · split at h
    · exact Except.noConfusion h
    · simp only [] at h
      split at h
      · exact Except.noConfusion h
      · rename_i out2 heq
        have hd := dropStep_meta _ _ _ heq
        have hE0 : elDegree (if al = EvalAlias.outIsC0 then out2 else c0) = 1 := by
          by_cases ha : al = EvalAlias.outIsC0
          · rw [if_pos ha]
            unfold elDegree
            rw [hd.2.1, ← halias0 ha]
            exact hd0
          · rw [if_neg ha]
            exact hd0
        have hE1 : elDegree (if sq = true then (if al = EvalAlias.outIsC0 then out2 else c0)
            else if al = EvalAlias.outIsC1 then out2 else c1) = 1 := by
          by_cases hs : sq = true
          · rw [if_pos hs]
            exact hE0
          · rw [if_neg hs]
            by_cases ha : al = EvalAlias.outIsC1
            · rw [if_pos ha]
              unfold elDegree
              rw [hd.2.1, ← halias1 ha]
              exact hd1
            · rw [if_neg ha]
              exact hd1
        rw [if_neg (by rw [hE0, hE1]; omega :
            ¬(1 < elDegree (if al = EvalAlias.outIsC0 then out2 else c0)
              ∨ 1 < elDegree (if sq = true
                  then (if al = EvalAlias.outIsC0 then out2 else c0)
                  else if al = EvalAlias.outIsC1 then out2 else c1)))] at h
        by_cases hC2 : (if al = EvalAlias.outIsC0 then out2 else c0).isNTT = false
        · rw [if_pos hC2] at h
          exact Except.noConfusion h
        · rw [if_neg hC2] at h
          by_cases hC3 : (if sq = true then (if al = EvalAlias.outIsC0 then out2 else c0)
              else if al = EvalAlias.outIsC1 then out2 else c1).isNTT = false
          · rw [if_pos hC3] at h
            exact Except.noConfusion h
          · rw [if_neg hC3] at h
            rw [if_pos (by rw [hE0, hE1] :
                elDegree (if al = EvalAlias.outIsC0 then out2 else c0)
                  + elDegree (if sq = true
                      then (if al = EvalAlias.outIsC0 then out2 else c0)
                      else if al = EvalAlias.outIsC1 then out2 else c1) = 2)] at h
            obtain ⟨_, _, _, h4⟩ := mulRelinCtCt_meta _ _ _ _ _ _ _ _ _ _ _ h
            unfold elDegree
            rw [h4 rfl]

/-- C4: for `MulRelin` (and through it `MulRelinNew`) the output scale is the
product of the two operand scales on every success path; under the entry checks
(operands not both plaintext, receiver degree at least the max operand degree)
the call panics when an operand has degree above 1 or is not in the NTT domain;
with an evaluation key the relinearized output keeps the receiver's degree
(degree 1 for `MulRelinNew`'s fresh receiver, but a degree-2 receiver keeps its
stale third part, refuting the unconditional degree-1 reading); with no key a
ciphertext-ciphertext product has degree 2. -/
theorem C4_mulRelin_amended (ctx : Ctx) (ext : ExtOps) (pools : EvalPools)
    (al : EvalAlias) (sq : Bool) (ek : Option SwitchingKey) (c0 c1 outIn : Elem)
    (halias0 : al = .outIsC0 → c0 = outIn) (halias1 : al = .outIsC1 → c1 = outIn)
    (hsq : sq = true → c1 = c0) :
    (∀ res, mulRelin ctx ext pools al sq ek c0 c1 outIn = .ok res →
      res.scaleV = c0.scaleV * c1.scaleV) ∧
    (elDegree c0 + elDegree c1 ≠ 0 →
      max (elDegree c0) (elDegree c1) ≤ elDegree outIn →
      ((1 < elDegree c0 ∨ 1 < elDegree c1 →
        mulRelin ctx ext pools al sq ek c0 c1 outIn
          = .error (.panicked
              "cannot mul, input element and output element must be of degree 0 or 1")) ∧
      (elDegree c0 ≤ 1 → elDegree c1 ≤ 1 → c0.isNTT = false →
        mulRelin ctx ext pools al sq ek c0 c1 outIn
          = .error (.panicked "cannot mul, op0 must be in NTT to multiply")) ∧
      (elDegree c0 ≤ 1 → elDegree c1 ≤ 1 → c0.isNTT = true → c1.isNTT = false →
        mulRelin ctx ext pools al sq ek c0 c1 outIn
          = .error (.panicked "cannot mul, op1 must be in NTT to multiply")))) ∧
    (∀ key res, ek = some key →
      mulRelin ctx ext pools al sq ek c0 c1 outIn = .ok res →
      elDegree res = elDegree outIn) ∧
    (ek = none → elDegree c0 = 1 → elDegree c1 = 1 →
      ∀ res, mulRelin ctx ext pools al sq ek c0 c1 outIn = .ok res →
      elDegree res = 2) := by
  refine ⟨?_, ?_, ?_, ?_⟩
  · intro res h
    exact (mulRelin_ok_meta _ _ _ _ _ _ _ _ _ _ h).1
  · intro hne hrecv
    obtain ⟨o2, ho2⟩ : ∃ o2,
        (if min (min (elLevel c0) (elLevel c1)) (elLevel outIn) < elLevel outIn
          then dropLevelElem outIn
            (elLevel outIn - min (min (elLevel c0) (elLevel c1)) (elLevel outIn))
          else some outIn) = some o2 := by
      by_cases hlt : min (min (elLevel c0) (elLevel c1)) (elLevel outIn) < elLevel outIn
      · rw [if_pos hlt]
        exact dropLevelElem_le outIn _ (by omega)
      · rw [if_neg hlt]
        exact ⟨outIn, rfl⟩
    have hmeta := dropStep_meta _ _ _ ho2
    have hdE0 : elDegree (if al = EvalAlias.outIsC0 then o2 else c0) = elDegree c0 := by
      by_cases ha : al = EvalAlias.outIsC0
      · rw [if_pos ha]
        unfold elDegree
        rw [hmeta.2.1, halias0 ha]
      · rw [if_neg ha]
    have hnE0 : (if al = EvalAlias.outIsC0 then o2 else c0).isNTT = c0.isNTT := by
      by_cases ha : al = EvalAlias.outIsC0
      · rw [if_pos ha, hmeta.2.2, halias0 ha]
      · rw [if_neg ha]
    have hdE1 : elDegree (if sq = true then (if al = EvalAlias.outIsC0 then o2 else c0)
        else if al = EvalAlias.outIsC1 then o2 else c1) = elDegree c1 := by
      by_cases hs : sq = true
      · rw [if_pos hs, hdE0, hsq hs]
      · rw [if_neg hs]
        by_cases ha : al = EvalAlias.outIsC1
        · rw [if_pos ha]
          unfold elDegree
          rw [hmeta.2.1, halias1 ha]
        · rw [if_neg ha]
    have hnE1 : (if sq = true then (if al = EvalAlias.outIsC0 then o2 else c0)
        else if al = EvalAlias.outIsC1 then o2 else c1).isNTT = c1.isNTT := by
      by_cases hs : sq = true
      · rw [if_pos hs, hnE0, hsq hs]
      · rw [if_neg hs]
        by_cases ha : al = EvalAlias.outIsC1
        · rw [if_pos ha, hmeta.2.2, halias1 ha]
        · rw [if_neg ha]
    refine ⟨?_, ?_, ?_⟩
    · intro hbig
      unfold mulRelin
      rw [if_neg hne, if_neg (not_lt.mpr hrecv)]
      simp only []
      rw [ho2]
      simp only []
      rw [hdE0, hdE1, if_pos hbig]
    · intro hle0 hle1 hn0
      unfold mulRelin
      rw [if_neg hne, if_neg (not_lt.mpr hrecv)]
      simp only []
      rw [ho2]
      simp only []
      rw [hdE0, hdE1,
        if_neg (show ¬(1 < elDegree c0 ∨ 1 < elDegree c1) by omega),
        hnE0, if_pos hn0]
    · intro hle0 hle1 hn0 hn1
      unfold mulRelin
      rw [if_neg hne, if_neg (not_lt.mpr hrecv)]
      simp only []
      rw [ho2]
      simp only []
      rw [hdE0, hdE1,
        if_neg (show ¬(1 < elDegree c0 ∨ 1 < elDegree c1) by omega),
        hnE0, if_neg (show ¬(c0.isNTT = false) by simp [hn0]),
        hnE1, if_pos hn1]
  · intro key res hek h
    subst hek
    have hlen := (mulRelin_ok_meta _ _ _ _ _ _ _ _ _ _ h).2 rfl
    unfold elDegree
    rw [hlen]
  · intro hek hd0 hd1 res h
    subst hek
    exact mulRelin_nokey_deg2 _ _ _ _ _ _ _ _ _ halias0 halias1 hd0 hd1 h

/-- C4 counterexample: with an evaluation key supplied and a degree-2 receiver
distinct from the two degree-1 NTT operands, `MulRelin` relinearizes into parts
0 and 1 but never truncates the receiver, whose stale third part survives: the
output has degree 2, not the claimed degree 1. -/
theorem C4_mulRelin_counterexample :
    Except.toOption ((mulRelin (Ctx.mk 1 [5] [3] 1 1)
        (ExtOps.mk (fun _ p => p) (fun _ r => r) (fun p => p) (fun _ _ p => (p, p))
          (fun _ => 1) (fun _ q _ => q) (fun p _ => p))
        (EvalPools.mk [[0]] [[0]] [[0]] [[0]] [[0]] [[0], [0]] (Elem.mk [[[0]]] 1 true))
        .distinct false (some (SwitchingKey.mk [([[0], [0]], [[0], [0]])]))
        (Elem.mk [[[1]], [[2]]] 1 true) (Elem.mk [[[3]], [[4]]] 1 true)
        (Elem.mk [[[0]], [[0]], [[7]]] 1 true)).map elDegree) = some 2 := by
  decide

/-- Witness for C4: a non-NTT first operand panics with the op0 message. -/
theorem C4_mulRelin_amended_witness :
    mulRelin (Ctx.mk 1 [5] [3] 1 1)
        (ExtOps.mk (fun _ p => p) (fun _ r => r) (fun p => p) (fun _ _ p => (p, p))
          (fun _ => 1) (fun _ q _ => q) (fun p _ => p))
        (EvalPools.mk [[0]] [[0]] [[0]] [[0]] [[0]] [[0], [0]] (Elem.mk [[[0]]] 1 true))
        .distinct false none
        (Elem.mk [[[1]], [[2]]] 1 false) (Elem.mk [[[3]], [[4]]] 1 true)
        (Elem.mk [[[0]], [[0]]] 1 true)
      = .error (.panicked "cannot mul, op0 must be in NTT to multiply") :=
  ((C4_mulRelin_amended (Ctx.mk 1 [5] [3] 1 1)
      (ExtOps.mk (fun _ p => p) (fun _ r => r) (fun p => p) (fun _ _ p => (p, p))
        (fun _ => 1) (fun _ q _ => q) (fun p _ => p))
      (EvalPools.mk [[0]] [[0]] [[0]] [[0]] [[0]] [[0], [0]] (Elem.mk [[[0]]] 1 true))
      .distinct false none
      (Elem.mk [[[1]], [[2]]] 1 false) (Elem.mk [[[3]], [[4]]] 1 true)
      (Elem.mk [[[0]], [[0]]] 1 true)
      (by decide) (by decide) (by decide)).2.1 (by decide) (by decide)).2.1
    (by decide) (by decide) rfl

/-- C10: for degree-1 input and output, `RotateColumns` reduces the rotation
amount with the mask `N/2 - 1` (equal to reduction mod `N/2` since `N/2` is a
power of two), and a reduced amount of 0 copies the input to the output
unchanged, for every rotation-key set alike (no key is consulted). -/
theorem C10_rotateColumns_zero (ctx : Ctx) (ext : ExtOps) (pools : EvalPools)
    (ct0 : Elem) (k : Nat) (rk : RotationKeys) (ctOut : Elem) (m : Nat)
    (hd0 : elDegree ct0 = 1) (hd1 : elDegree ctOut = 1)
    (hN : ctx.N / 2 = 2 ^ m) (hk : k % (ctx.N / 2) = 0) :
    k &&& (ctx.N / 2 - 1) = k % (ctx.N / 2) ∧
    rotateColumns ctx ext pools ct0 k rk ctOut = .ok ct0 ∧
    (∀ rk2, rotateColumns ctx ext pools ct0 k rk2 ctOut = .ok ct0) := by
  have hmask : k &&& (ctx.N / 2 - 1) = k % (ctx.N / 2) := by
    rw [hN, Nat.and_pow_two_sub_one_eq_mod]
  have hmain : ∀ rk2 : RotationKeys,
      rotateColumns ctx ext pools ct0 k rk2 ctOut = .ok ct0 := by
    intro rk2
    unfold rotateColumns
    rw [if_neg (by simp [hd0, hd1])]
    simp only []
    rw [hmask]
    rw [if_pos hk]
  exact ⟨hmask, hmain rk, hmain⟩

/-- Witness for C10: `N = 8`, `k = 8` reduces to 0 and the input is returned
unchanged whatever the key set. -/
theorem C10_rotateColumns_zero_witness :
    (8 : Nat) &&& ((Ctx.mk 8 [5] [3] 1 1).N / 2 - 1) = 8 % ((Ctx.mk 8 [5] [3] 1 1).N / 2) ∧
    rotateColumns (Ctx.mk 8 [5] [3] 1 1)
        (ExtOps.mk (fun _ p => p) (fun _ r => r) (fun p => p) (fun _ _ p => (p, p))
          (fun _ => 1) (fun _ q _ => q) (fun p _ => p))
        (EvalPools.mk [[0]] [[0]] [[0]] [[0]] [[0]] [[0], [0]] (Elem.mk [[[0]]] 1 true))
        (Elem.mk [[[1]], [[2]]] 1 true) 8
        (RotationKeys.mk (fun _ => none) (fun _ => none) (fun _ => []) (fun _ => []))
        (Elem.mk [[[0]], [[0]]] 1 true) = .ok (Elem.mk [[[1]], [[2]]] 1 true) ∧
    (∀ rk2, rotateColumns (Ctx.mk 8 [5] [3] 1 1)
        (ExtOps.mk (fun _ p => p) (fun _ r => r) (fun p => p) (fun _ _ p => (p, p))
          (fun _ => 1) (fun _ q _ => q) (fun p _ => p))
        (EvalPools.mk [[0]] [[0]] [[0]] [[0]] [[0]] [[0], [0]] (Elem.mk [[[0]]] 1 true))
        (Elem.mk [[[1]], [[2]]] 1 true) 8 rk2
        (Elem.mk [[[0]], [[0]]] 1 true) = .ok (Elem.mk [[[1]], [[2]]] 1 true)) :=
  C10_rotateColumns_zero (Ctx.mk 8 [5] [3] 1 1)
    (ExtOps.mk (fun _ p => p) (fun _ r => r) (fun p => p) (fun _ _ p => (p, p))
      (fun _ => 1) (fun _ q _ => q) (fun p _ => p))
    (EvalPools.mk [[0]] [[0]] [[0]] [[0]] [[0]] [[0], [0]] (Elem.mk [[[0]]] 1 true))
    (Elem.mk [[[1]], [[2]]] 1 true) 8
    (RotationKeys.mk (fun _ => none) (fun _ => none) (fun _ => []) (fun _ => []))
    (Elem.mk [[[0]], [[0]]] 1 true) 2
    (by decide) (by decide) (by decide) (by decide)

/-- C8: for degree-1 ciphertexts and a rotation amount with nonzero reduction
`k2 = k AND (N/2 - 1)`: with the exact left key present `RotateColumns` applies
it directly through `permuteNTT` on a receiver carrying the input's scale; with
no exact key but the full power-of-two ladder (left and right keys for every
power of two below `N/2`), it rotates left by `k2` when `HW(k2) <= HW(N/2-k2)`
and right by `N/2 - k2` otherwise; with neither it panics.  The power-of-two
pass copies the input and then walks the bits of the amount, applying the
`2^i` rotation in place exactly when bit `i` is set. -/
theorem C8_rotateColumns_cases (ctx : Ctx) (ext : ExtOps) (pools : EvalPools)
    (ct0 : Elem) (k : Nat) (rk : RotationKeys) (ctOut : Elem)
    (hd0 : elDegree ct0 = 1) (hd1 : elDegree ctOut = 1)
    (hk : k &&& (ctx.N / 2 - 1) ≠ 0) :
    (∀ key, rk.evakeyRotColLeft (k &&& (ctx.N / 2 - 1)) = some key →
      rotateColumns ctx ext pools ct0 k rk ctOut
        = liftO (permuteNTT ctx ext pools false ct0
            (rk.permuteNTTLeftIndex (k &&& (ctx.N / 2 - 1))) key
            (Elem.mk ctOut.value ct0.scaleV ctOut.isNTT))) ∧
    (rk.evakeyRotColLeft (k &&& (ctx.N / 2 - 1)) = none →
      hasPow2Rotations ctx rk = true →
      hammingWeight (k &&& (ctx.N / 2 - 1))
          ≤ hammingWeight (ctx.N / 2 - (k &&& (ctx.N / 2 - 1))) →
      rotateColumns ctx ext pools ct0 k rk ctOut
        = liftO (rotateColumnsPow2 ctx ext pools rk.permuteNTTLeftIndex
            rk.evakeyRotColLeft (k &&& (ctx.N / 2 - 1)) ct0
            (Elem.mk ctOut.value ct0.scaleV ctOut.isNTT))) ∧
    (rk.evakeyRotColLeft (k &&& (ctx.N / 2 - 1)) = none →
      hasPow2Rotations ctx rk = true →
      ¬(hammingWeight (k &&& (ctx.N / 2 - 1))
          ≤ hammingWeight (ctx.N / 2 - (k &&& (ctx.N / 2 - 1)))) →
      rotateColumns ctx ext pools ct0 k rk ctOut
        = liftO (rotateColumnsPow2 ctx ext pools rk.permuteNTTRightIndex
            rk.evakeyRotColRight (ctx.N / 2 - (k &&& (ctx.N / 2 - 1))) ct0
            (Elem.mk ctOut.value ct0.scaleV ctOut.isNTT))) ∧
    (rk.evakeyRotColLeft (k &&& (ctx.N / 2 - 1)) = none →
      hasPow2Rotations ctx rk = false →
      rotateColumns ctx ext pools ct0 k rk ctOut
        = .error (.panicked
            "cannot rotate, specific rotation and pow2 rotations have not been generated")) ∧
    (hasPow2Rotations ctx rk = true ↔
      ∀ t, 2 ^ t < ctx.N / 2 →
        (rk.evakeyRotColLeft (2 ^ t)).isSome = true
          ∧ (rk.evakeyRotColRight (2 ^ t)).isSome = true) ∧
    (∀ (idxMap : Nat → List Nat) (keyMap : Nat → Option SwitchingKey)
        (e : Nat) (cur : Elem),
      rotPow2Loop ctx ext pools idxMap keyMap e 0 cur = some cur) ∧
    (∀ (idxMap : Nat → List Nat) (keyMap : Nat → Option SwitchingKey)
        (e k2 : Nat) (cur : Elem) (key : SwitchingKey), k2 ≠ 0 → k2 % 2 = 1 →
      keyMap e = some key →
      rotPow2Loop ctx ext pools idxMap keyMap e k2 cur
        = match permuteNTT ctx ext pools true cur (idxMap e) key cur with
          | some cur2 => rotPow2Loop ctx ext pools idxMap keyMap (e * 2) (k2 / 2) cur2
          | none => none) ∧
    (∀ (idxMap : Nat → List Nat) (keyMap : Nat → Option SwitchingKey)
        (e k2 : Nat) (cur : Elem), k2 ≠ 0 → k2 % 2 = 0 →
      rotPow2Loop ctx ext pools idxMap keyMap e k2 cur
        = rotPow2Loop ctx ext pools idxMap keyMap (e * 2) (k2 / 2) cur) ∧
    (∀ (idxMap : Nat → List Nat) (keyMap : Nat → Option SwitchingKey)
        (e k2 : Nat) (cur : Elem), k2 ≠ 0 → k2 % 2 = 1 →
      keyMap e = none →
      rotPow2Loop ctx ext pools idxMap keyMap e k2 cur = none) := by
  refine ⟨?_, ?_, ?_, ?_, ?_, ?_, ?_, ?_, ?_⟩
  · intro key hkey
    unfold rotateColumns
    rw [if_neg (by simp [hd0, hd1])]
    simp only []
    rw [if_neg hk, hkey]
  · intro hnone hlad hhw
    unfold rotateColumns
    rw [if_neg (by simp [hd0, hd1])]
    simp only []
    rw [if_neg hk, hnone]
    rw [if_pos hlad, if_pos hhw]
  · intro hnone hlad hhw
    unfold rotateColumns
    rw [if_neg (by simp [hd0, hd1])]
    simp only []
    rw [if_neg hk, hnone]
    rw [if_pos hlad, if_neg hhw]
  · intro hnone hlad
    unfold rotateColumns
    rw [if_neg (by simp [hd0, hd1])]
    simp only []
    rw [if_neg hk, hnone]
    rw [if_neg (by rw [hlad]; intro hh; exact Bool.noConfusion hh)]
  · unfold hasPow2Rotations
    rw [List.all_eq_true]
    constructor
    · intro hall t h2t
      have ht : t ∈ List.range ctx.N := by
        rw [List.mem_range]
        have := Nat.lt_two_pow t
        omega
      have := hall t ht
      rw [if_pos h2t] at this
      simp only [Bool.and_eq_true] at this
      exact this
    · intro hptw t _
      by_cases h2t : 2 ^ t < ctx.N / 2
      · rw [if_pos h2t]
        simp only [Bool.and_eq_true]
        exact hptw t h2t
      · rw [if_neg h2t]
  · intro idxMap keyMap e cur
    rw [rotPow2Loop.eq_def]
    rw [if_pos rfl]
  · intro idxMap keyMap e k2 cur key hk2 hmod hkey
    conv_lhs => rw [rotPow2Loop.eq_def]
    rw [if_neg hk2, if_pos hmod, hkey]
  · intro idxMap keyMap e k2 cur hk2 hmod
    conv_lhs => rw [rotPow2Loop.eq_def]
    rw [if_neg hk2, if_neg (by omega)]
  · intro idxMap keyMap e k2 cur hk2 hmod hkey
    conv_lhs => rw [rotPow2Loop.eq_def]
    rw [if_neg hk2, if_pos hmod, hkey]

/-- Witness for C8: with no exact key and no ladder, rotating by 3 panics. -/
theorem C8_rotateColumns_cases_witness :
    rotateColumns (Ctx.mk 8 [5] [3] 1 1)
        (ExtOps.mk (fun _ p => p) (fun _ r => r) (fun p => p) (fun _ _ p => (p, p))
          (fun _ => 1) (fun _ q _ => q) (fun p _ => p))
        (EvalPools.mk [[0]] [[0]] [[0]] [[0]] [[0]] [[0], [0]] (Elem.mk [[[0]]] 1 true))
        (Elem.mk [[[1]], [[2]]] 1 true) 3
        (RotationKeys.mk (fun _ => none) (fun _ => none) (fun _ => []) (fun _ => []))
        (Elem.mk [[[0]], [[0]]] 1 true)
      = .error (.panicked
          "cannot rotate, specific rotation and pow2 rotations have not been generated") :=
  (C8_rotateColumns_cases (Ctx.mk 8 [5] [3] 1 1)
      (ExtOps.mk (fun _ p => p) (fun _ r => r) (fun p => p) (fun _ _ p => (p, p))
        (fun _ => 1) (fun _ q _ => q) (fun p _ => p))
      (EvalPools.mk [[0]] [[0]] [[0]] [[0]] [[0]] [[0], [0]] (Elem.mk [[[0]]] 1 true))
      (Elem.mk [[[1]], [[2]]] 1 true) 3
      (RotationKeys.mk (fun _ => none) (fun _ => none) (fun _ => []) (fun _ => []))
      (Elem.mk [[[0]], [[0]]] 1 true)
      (by decide) (by decide) (by decide)).2.2.2.1 (by decide) (by decide)

theorem onFirstCopy_take_eq : ∀ (k : Nat) (s p : RPoly), k ≤ s.length → k ≤ p.length →
    (onFirstCopy k s p).take k = s.take k := by
  intro k
  induction k with
  | zero =>
    intro s p _ _
    simp
  | succ k ih =>
    intro s p hs hp
    cases s with
    | nil => simp at hs
    | cons a s =>
      cases p with
      | nil => simp at hp
      | cons b p =>
        simp only [onFirstCopy, List.take_succ_cons]
        rw [ih s p (by simpa using hs) (by simpa using hp)]

/-- C9: the pool discipline of the three cited operations.  `switchKeysInPlace`
zeroes its `poolQ`/`poolP` accumulators at entry and reads its
`keyswitchpool[0]` scratch only on the freshly written first `level+1` rows, so
(for a decomposer reading only those rows) its result is the same for any two
pool states; `genShareDelta` overwrites `tmp` with the fresh noise draw before
reading it, reads `hP` only through the accumulation, and restores the
freshly-allocated all-zero scratch state at exit, so its result depends only on
`hP`, which is zero at allocation and after every call; `evaluateInPlace` with a
dedicated receiver overwrites the ciphertext pool before reading it, so its
result is the same for any two (well-formed) pool contents. -/
theorem C9_pool_invariants (ctx : Ctx) (ext : ExtOps) (cext : CksExt) :
    (∀ (pools pools2 : EvalPools) (cx : RPoly) (key : SwitchingKey) (ctOut : Elem),
      (∀ (dIdx : Nat) (p q : RPoly),
        p.take (elLevel ctOut + 1) = q.take (elLevel ctOut + 1) →
        ext.decompose (elLevel ctOut) dIdx p = ext.decompose (elLevel ctOut) dIdx q) →
      elLevel ctOut + 1 ≤ pools.keyswitchpool0.length →
      elLevel ctOut + 1 ≤ pools2.keyswitchpool0.length →
      elLevel ctOut + 1 ≤ (ext.invNTTLvl (elLevel ctOut) cx).length →
      switchKeysInPlace ctx ext pools cx key ctOut
        = switchKeysInPlace ctx ext pools2 cx key ctOut) ∧
    (∀ (noise skDelta : RPoly) (ct : Elem) (shareOut : RPoly) (st1 st2 : CksState),
      st1.hP = st2.hP →
      genShareDelta ctx cext noise skDelta ct shareOut st1
        = genShareDelta ctx cext noise skDelta ct shareOut st2) ∧
    (∀ (noise skDelta : RPoly) (ct : Elem) (shareOut : RPoly) (st : CksState)
        (s : RPoly) (st2 : CksState),
      genShareDelta ctx cext noise skDelta ct shareOut st = some (s, st2) →
      st2 = newCksState ctx) ∧
    ((newCksState ctx).tmp = zeroQP ctx ∧ (newCksState ctx).hP = zeroP ctx) ∧
    (∀ (op : Nat → Nat → Nat → Nat) (c0 c1 outIn pool1 pool2 : Elem),
      oddModuli ctx.Qm → elemWF ctx c0 → elemWF ctx c1 → elemWF ctx outIn →
      elemWF ctx pool1 → elemWF ctx pool2 →
      0 < c0.scaleV → 0 < c1.scaleV →
      max (elDegree c0) (elDegree c1) ≤ elDegree outIn →
      min (elLevel c0) (elLevel c1) ≤ elLevel outIn →
      min (elLevel c0) (elLevel c1) ≤ elLevel pool1 →
      max (elDegree c0) (elDegree c1) ≤ elDegree pool1 →
      min (elLevel c0) (elLevel c1) ≤ elLevel pool2 →
      max (elDegree c0) (elDegree c1) ≤ elDegree pool2 →
      evaluateInPlace ctx op .distinct c0 c1 outIn pool1
        = evaluateInPlace ctx op .distinct c0 c1 outIn pool2) := by
  refine ⟨?_, ?_, ?_, ⟨rfl, rfl⟩, ?_⟩
  · intro pools pools2 cx key ctOut hdec hp1 hp2 hsrc
    have hc2 : (onFirstCopy (elLevel ctOut + 1) (ext.invNTTLvl (elLevel ctOut) cx)
          pools.keyswitchpool0).take (elLevel ctOut + 1)
        = (onFirstCopy (elLevel ctOut + 1) (ext.invNTTLvl (elLevel ctOut) cx)
          pools2.keyswitchpool0).take (elLevel ctOut + 1) := by
      rw [onFirstCopy_take_eq _ _ _ hsrc hp1, onFirstCopy_take_eq _ _ _ hsrc hp2]
    have hstep : skAccumStep ctx ext (elLevel ctOut) cx
          (onFirstCopy (elLevel ctOut + 1) (ext.invNTTLvl (elLevel ctOut) cx)
            pools.keyswitchpool0) key
        = skAccumStep ctx ext (elLevel ctOut) cx
          (onFirstCopy (elLevel ctOut + 1) (ext.invNTTLvl (elLevel ctOut) cx)
            pools2.keyswitchpool0) key := by
      funext st i
      unfold skAccumStep decomposeAndSplitNTT
      rw [hdec i _ _ hc2]
    unfold switchKeysInPlace
    simp only []
    rw [hstep]
  · intro noise skDelta ct shareOut st1 st2 hhp
    unfold genShareDelta
    rw [hhp]
  · intro noise skDelta ct shareOut st s st2 h
    unfold genShareDelta at h
    split at h
    · simp only [bind, Option.bind_eq_some] at h
      obtain ⟨s1, h1, h⟩ := h
      obtain ⟨s2, h2, h⟩ := h
      obtain ⟨s3, h3, h⟩ := h
      injection h with h
      rw [Prod.mk.injEq] at h
      exact h.2.symm
    · exact Option.noConfusion h
  · intro op c0 c1 outIn pool1 pool2 hodd hwf0 hwf1 hwfO hwfP1 hwfP2 hs0 hs1
      hdeg hlvl hplvl1 hpdeg1 hplvl2 hpdeg2
    rw [evaluateInPlace_distinct_eq ctx op c0 c1 outIn pool1 hodd hwf0 hwf1 hwfO hwfP1
        hs0 hs1 hdeg hlvl hplvl1 hpdeg1,
      evaluateInPlace_distinct_eq ctx op c0 c1 outIn pool2 hodd hwf0 hwf1 hwfO hwfP2
        hs0 hs1 hdeg hlvl hplvl2 hpdeg2]
